import Mathlib

/-!
# overlay: bind-mount weaving of two directory trees

A shallow embedding of `src/overlay.c`: the directory enumerator `nextent`,
`do_readlinkat`, `bindmntat`, the weave `merge` and the argument handling of
`main`, with the properties of the weave proved about the embedding.

## How the program is modelled

* A directory tree is a `Node`: a directory with its mode, what the invoking
  user may do with it (open it for reading, pass the `W_OK` access check) and
  its entries; a symlink with its target; or any other object (regular file,
  device, socket, fifo) with its content.
* The kernel state that `merge` changes is what is visible at the output slot
  `outfd/outname`. `merge` takes the content of the slot and returns the content
  visible there afterwards; a frame threads the entry list of its open `out`
  directory through its loops. A bind mount makes the source object, with all
  that is below it, visible at the target.
* Every system and library call that can fail is a `syscall`: it appends an
  `Event` to the trace of the `World`, and its result is the one the modelled
  file system gives (its *natural* result), unless the next element of the
  fault list injects an errno. A `World` with an empty fault list is a kernel
  that fails only where the file system model says so.
* `bindmntat` also appends a `BindRec` to the world: the directory-ness of its
  source and of its target at that moment.
* The static buffer `outpath` is the length of the string it holds, the offset
  `tail` that `strchr(outpath, '\0')` finds on entry of a frame. The `sprintf`
  before a recursive call writes the name, a slash and a NUL at `tail`; when
  they do not fit in the `PATH_MAX` bytes of the buffer the run of the model
  ends with the outcome `overrun`, and nothing is stated of what the program
  does from there on.
* The recursion of `merge` is on a fuel argument; `Node.depth top < fuel` is
  enough, under any faults.

## What is left out

* `fdopendir` and `rewinddir` are taken to succeed, and so is the `sprintf` into
  `buf` of line 97.
* `readdir` is taken to report the type of every entry in `d_type`.
* Of the permissions only the right to open a directory for reading and the
  `W_OK` access check are modelled; search permission is taken as given.
* The modes asked of `mkdirat` and `mknodat` are taken as given; every object
  they make is covered by a bind mount or gets its mode from `fchmod`.
* File descriptors are not counted.

## How the theorems read

* The trees are well formed (`Node.wf`): entry names are distinct and not `.` or
  `..`, a symlink target has no NUL and at most `PATH_MAX` bytes.
* `weave` is the call of line 210 in a world without injected faults. It is
  proved to finish when every directory of base and of top can be opened
  (`Node.readable`) and the paths of the directories of top fit in `outpath`
  (`Node.fits`). Elsewhere a run can end in `CHKSYS` on a directory that cannot
  be opened, or beyond the end of `outpath`. The theorems on the output tree hold
  of every run that finishes.
* On the explode path a directory of base that cannot be opened is taken for a
  missing one (line 107), and what base has below it is not woven in; `lost` is
  the set of these paths, on which the theorems on base say nothing.
-/

namespace Overlay

/-! ## Directory trees -/

/-- Entry names. -/
abbrev Name := String

/-- What the invoking user may do with a directory: `rok` is whether `openat` with
`O_RDONLY|O_DIRECTORY|O_NOFOLLOW|O_CLOEXEC` succeeds on it, `wok` is whether
`faccessat(dir, ".", W_OK, 0)` succeeds. -/
structure Access where
  rok : Bool
  wok : Bool
  deriving DecidableEq

/-- A file system object. `mode` holds the permission bits of a directory, `acc`
what the invoking user may do with it. -/
inductive Node where
  | dir (mode : Nat) (acc : Access) (ents : List (Name × Node))
  | lnk (target : List Char)
  | oth (data : String)
  deriving Inhabited

/-- The entry list of a directory. -/
abbrev Ents := List (Name × Node)

/-- Value of `d_type` as far as the program distinguishes it. -/
inductive DType where
  | DT_DIR
  | DT_LNK
  | DT_OTHER
  deriving DecidableEq

/-- What `readdir` returns: `d_name` and `d_type`. -/
structure Dirent where
  d_name : Name
  d_type : DType
  deriving DecidableEq

namespace Node

/-- Directory-ness of an object. -/
def isDir : Node → Bool
  | dir _ _ _ => true
  | _ => false

/-- Entries of a directory (none for other objects). -/
def ents : Node → Ents
  | dir _ _ es => es
  | _ => []

/-- Permission bits of a directory. -/
def mode : Node → Nat
  | dir m _ _ => m
  | _ => 0

/-- Result of the `W_OK` access check on a directory. -/
def wok : Node → Bool
  | dir _ a _ => a.wok
  | _ => false

/-- Whether the object is a directory that the invoking user can open for
reading. -/
def rok : Node → Bool
  | dir _ a _ => a.rok
  | _ => false

/-- The `d_type` that `readdir` reports for an object. -/
def dtype : Node → DType
  | dir _ _ _ => .DT_DIR
  | lnk _ => .DT_LNK
  | oth _ => .DT_OTHER

end Node

/-- Look a name up in an entry list (first match). -/
def find (name : Name) : Ents → Option Node
  | [] => none
  | (n, v) :: rest => if n = name then some v else find name rest

/-- Replace the object visible under `name` (no change when absent). -/
def setEnt (name : Name) (v : Node) : Ents → Ents
  | [] => []
  | (n, x) :: rest => if n = name then (n, v) :: rest else (n, x) :: setEnt name v rest

/-- The object at a path below a node. -/
def Node.walk : Node → List Name → Option Node
  | n, [] => some n
  | .dir _ _ es, name :: rest =>
    match find name es with
    | some c => Node.walk c rest
    | none => none
  | _, _ :: _ => none

mutual
/-- Nesting depth of a tree: 0 for a non-directory. -/
def Node.depth : Node → Nat
  | .dir _ _ es => depthEnts es + 1
  | _ => 0
/-- Largest depth among the entries. -/
def depthEnts : Ents → Nat
  | [] => 0
  | (_, n) :: rest => max (Node.depth n) (depthEnts rest)
end

/-! ## Constants -/

/-- Linux `PATH_MAX`. -/
def PATH_MAX : Nat := 4096
/-- Errno `ENOENT`. -/
def ENOENT : Nat := 2
/-- Errno `EACCES`. -/
def EACCES : Nat := 13
/-- Errno `EEXIST`. -/
def EEXIST : Nat := 17
/-- Errno `ENOTDIR`. -/
def ENOTDIR : Nat := 20
/-- Errno `EINVAL`. -/
def EINVAL : Nat := 22

/-- The role tag of a frame, `enum State`. -/
inductive State where
  | kRoot
  | kBase
  | kSkeleton
  deriving DecidableEq

/-! ## Calls, events and the process monad -/

/-- The call sites of `nextent`, `do_readlinkat`, `bindmntat` and `merge` that can
fail, one per source line. -/
inductive Call where
  /-- Line 33, `readdir` in `nextent`. -/
  | readdir
  /-- Line 46, `readlinkat` in `do_readlinkat`. -/
  | readlinkat
  /-- Line 55, `openat` of the bind source. -/
  | bind_open_src
  /-- Line 56, `openat` of the bind target. -/
  | bind_open_dst
  /-- Line 60, `mount` with `MS_BIND|MS_REC`. -/
  | bind_mount
  /-- Line 61, `close(dstpathfd)`. -/
  | bind_close_dst
  /-- Line 62, `close(srcpathfd)`. -/
  | bind_close_src
  /-- Line 86, `fstatat` of the scan. -/
  | fstatat_scan
  /-- Line 101, `mount` of the tmpfs. -/
  | mount_tmpfs
  /-- Line 103, `openat` of the output directory, explode path. -/
  | openat_out_explode
  /-- Line 106, `mkdirat` of pass 1. -/
  | mkdirat_top
  /-- Line 107, `openat` of the base entry in pass 1. -/
  | openat_base_pass1
  /-- Line 113, `openat` of the top entry in pass 1. -/
  | openat_top_pass1
  /-- Line 119, `symlinkat` of pass 1. -/
  | symlinkat_top
  /-- Line 121, `mknodat` of pass 1. -/
  | mknodat_top
  /-- Line 127, `mkdirat` of pass 2. -/
  | mkdirat_base
  /-- Line 134, `symlinkat` of pass 2. -/
  | symlinkat_base
  /-- Line 139, `mknodat` of pass 2. -/
  | mknodat_base
  /-- Line 146, `faccessat`. -/
  | faccessat
  /-- Line 148, `fchmod`. -/
  | fchmod
  /-- Line 149, `close(out)`, explode path. -/
  | close_out_explode
  /-- Line 155, `openat` of the output directory, stack path. -/
  | openat_out_stack
  /-- Line 159, `openat` of the base entry, stack path. -/
  | openat_base_stack
  /-- Line 160, `openat` of the top entry, stack path. -/
  | openat_top_stack
  /-- Line 168, `close(out)`, stack path. -/
  | close_out_stack
  /-- Line 170, `closedir(topdir)`. -/
  | closedir_top
  /-- Line 171, `closedir(basedir)`. -/
  | closedir_base
  deriving DecidableEq

/-- One call issued by the process: where, on which name, and the errno when it
failed. -/
structure Event where
  call : Call
  arg : Name
  errno : Option Nat
  deriving DecidableEq

/-- One bind mount attempted through `bindmntat`: the directory-ness of the source
object and of the object at the target when `bindmntat` is entered (`none` when
there is no such object). -/
structure BindRec where
  src : Option Bool
  dst : Option Bool
  deriving DecidableEq

/-- What surrounds the process: the errnos the kernel will inject into the coming
calls (`none`: the call behaves as the file system model says), the calls issued
so far and the bind mounts attempted so far. -/
structure World where
  faults : List (Option Nat)
  trace : List Event
  binds : List BindRec

/-- How a computation ends. `overrun` is a write beyond the end of `outpath`,
after which the behaviour of the program is undefined. `starved` only arises in
the model: the recursion ran out of fuel. -/
inductive Outcome (α : Type) where
  | done (a : α)
  | abort (status : Nat)
  | overrun
  | starved
  deriving DecidableEq

/-- A computation of the process. -/
def Sys (α : Type) : Type := World → Outcome α × World

/-- Sequencing; an abort ends the process. -/
def Sys.bind {α β : Type} (m : Sys α) (f : α → Sys β) : Sys β := fun w =>
  match m w with
  | (.done a, w1) => f a w1
  | (.abort c, w1) => (.abort c, w1)
  | (.overrun, w1) => (.overrun, w1)
  | (.starved, w1) => (.starved, w1)

instance : Monad Sys where
  pure a := fun w => (.done a, w)
  bind := Sys.bind

/-- Leave the process with an exit status: `err(status, ...)`. -/
def die {α : Type} (status : Nat) : Sys α := fun w => (.abort status, w)

/-- The recursion of the model ran out of fuel. -/
def starve {α : Type} : Sys α := fun w => (.starved, w)

/-- The errno of a result. -/
def errnoOf {α : Type} : Except Nat α → Option Nat
  | .ok _ => none
  | .error e => some e

/-- Issue a call. Its result is `natural`, the result in the modelled file system,
unless the kernel injects an errno. The call and its errno are appended to the
trace. -/
def syscall {α : Type} (c : Call) (arg : Name) (natural : Except Nat α) :
    Sys (Except Nat α) := fun w =>
  let r : Except Nat α :=
    match w.faults with
    | some e :: _ => .error e
    | _ => natural
  (.done r, { faults := w.faults.tail, trace := w.trace ++ [⟨c, arg, errnoOf r⟩],
              binds := w.binds })

/-- The macro `CHKSYS(expr)` of line 24: a failing call ends the process with
status 255. -/
def CHKSYS {α : Type} (c : Call) (arg : Name) (natural : Except Nat α) : Sys α := do
  match ← syscall c arg natural with
  | .ok a => pure a
  | .error _ => die 255

/-- Record a bind mount attempt. -/
def logBind (r : BindRec) : Sys Unit := fun w =>
  (.done (), { faults := w.faults, trace := w.trace, binds := w.binds ++ [r] })

/-! ## The file system seen through the calls -/

/-- `openat(dir, name, O_RDONLY|O_DIRECTORY|O_NOFOLLOW|O_CLOEXEC)`: `EACCES` on a
directory the invoking user may not read. -/
def openDir (dir : Node) (name : Name) : Except Nat Node :=
  match find name dir.ents with
  | some (.dir m a es) => if a.rok then .ok (.dir m a es) else .error EACCES
  | some _ => .error ENOTDIR
  | none => .error ENOENT

/-- `fstatat(dir, name, &st, AT_SYMLINK_NOFOLLOW)`: the object itself. -/
def fstatat (dir : Node) (name : Name) : Except Nat Node :=
  match find name dir.ents with
  | some n => .ok n
  | none => .error ENOENT

/-- `readlinkat(dir, name, buf, bufsiz)`: the bytes placed in `buf`; the return
value is their number. -/
def readlinkat (dir : Node) (name : Name) (bufsiz : Nat) : Except Nat (List Char) :=
  match find name dir.ents with
  | some (.lnk t) => .ok (t.take bufsiz)
  | some _ => .error EINVAL
  | none => .error ENOENT

/-- Create `name` in a directory (`mkdirat`, `symlinkat`, `mknodat`): `EEXIST` when
an entry of that name is there. -/
def createAt (out : Ents) (name : Name) (v : Node) : Except Nat Ents :=
  match find name out with
  | some _ => .error EEXIST
  | none => .ok (out ++ [(name, v)])

/-- A directory just made by `mkdir(.., 0755)` or as the root of a fresh tmpfs
mounted with `mode=755`. -/
def emptyDir : Node := .dir 0o755 ⟨true, true⟩ []

/-- A file just made by `mknodat(.., S_IFREG|0644, 0)`. -/
def emptyFile : Node := .oth ""

/-- `mount(NULL, target, "tmpfs", 0, "mode=755")`: the target has to be a
directory; afterwards an empty directory is visible there. -/
def mountTmpfs (slot : Option Node) : Except Nat (Option Node) :=
  match slot with
  | some (.dir _ _ _) => .ok (some emptyDir)
  | some _ => .error ENOTDIR
  | none => .error ENOENT

/-- `openat(outfd, outname, kOpendirFlags)` on the output slot. -/
def openSlot (slot : Option Node) : Except Nat Node :=
  match slot with
  | some (.dir m a es) => if a.rok then .ok (.dir m a es) else .error EACCES
  | some _ => .error ENOTDIR
  | none => .error ENOENT

/-- `openat(dir, name, O_PATH|O_NOFOLLOW|O_CLOEXEC)` on an object. -/
def openPath (obj : Option Node) : Except Nat Node :=
  match obj with
  | some n => .ok n
  | none => .error ENOENT

/-- `mount(src, dst, NULL, MS_BIND|MS_REC, NULL)`: a directory goes over a
directory and a non-directory over a non-directory; afterwards the source is
visible at the target. -/
def mountBind (src dst : Node) : Except Nat Node :=
  if src.isDir = dst.isDir then .ok src else .error ENOTDIR

/-- `faccessat(dir, ".", W_OK, 0)`. -/
def faccessatW (dir : Node) : Except Nat Unit :=
  if dir.wok then .ok () else .error EACCES

/-- `fchmod(out, mode)` on a directory of the tmpfs, which the invoking user owns:
what the user may do follows the owner bits. -/
def chmodDir (mode : Nat) (es : Ents) : Node :=
  .dir mode ⟨mode / 0o400 % 2 == 1, mode / 0o200 % 2 == 1⟩ es

/-! ## `nextent` (lines 30-42) -/

/-- The test of line 39: the name is `.` or `..`. -/
def isDot (n : Name) : Bool :=
  match n.data with
  | c0 :: rest =>
    c0 == '.' && (match rest with
      | [] => true
      | c1 :: rest2 => c1 == '.' && (match rest2 with
        | [] => true
        | _ :: _ => false))
  | [] => false

/-- The entry `readdir` delivers for an entry of a directory. -/
def toDirent (e : Name × Node) : Dirent := ⟨e.1, e.2.dtype⟩

/-- The stream `readdir` delivers for a directory: `.`, `..` and the entries. -/
def dirStream (d : Node) : List Dirent :=
  ⟨".", .DT_DIR⟩ :: ⟨"..", .DT_DIR⟩ :: d.ents.map toDirent

/-- The function `nextent`: the next entry of the stream that is not `.` or `..`,
with the rest of the stream, or `none` at the end. A failing `readdir` ends the
process with status 1. -/
def nextent : List Dirent → Sys (Option (Dirent × List Dirent))
  | [] => do
    match ← syscall .readdir "" (.ok ()) with
    | .error _ => die 1
    | .ok _ => pure none
  | d :: rest => do
    match ← syscall .readdir d.d_name (.ok ()) with
    | .error _ => die 1
    | .ok _ => if isDot d.d_name then nextent rest else pure (some (d, rest))

/-- The loop `while ((d = nextent(dirp))) body` over a stream, threading the state
the body changes. -/
def forEnt {σ : Type} (body : Dirent → σ → Sys σ) : List Dirent → σ → Sys σ
  | [], s => do
    match ← syscall .readdir "" (.ok ()) with
    | .error _ => die 1
    | .ok _ => pure s
  | d :: rest, s => do
    match ← syscall .readdir d.d_name (.ok ()) with
    | .error _ => die 1
    | .ok _ =>
      if isDot d.d_name then forEnt body rest s
      else do
        let s1 ← body d s
        forEnt body rest s1

/-! ## `do_readlinkat` (lines 45-49) -/

/-- The C string held by a buffer: the bytes before the first NUL. -/
def cstr (buf : List Char) : List Char := buf.takeWhile (fun c => c != Char.ofNat 0)

/-- The function `do_readlinkat`: the string left in `buf`. -/
def do_readlinkat (dir : Node) (pathname : Name) : Sys (List Char) := do
  let buf ← CHKSYS .readlinkat pathname (readlinkat dir pathname (PATH_MAX + 1))
  if buf.length > PATH_MAX then die 1
  else pure (cstr buf)

/-! ## `bindmntat` (lines 52-63) -/

/-- The function `bindmntat`, on the object `src` named by `srcdir/srcname` and the
object `dst` named by `dstdir/dstname`: the object visible at the target
afterwards. -/
def bindmntat (srcname dstname : Name) (src dst : Option Node) : Sys Node := do
  logBind ⟨src.map Node.isDir, dst.map Node.isDir⟩
  let s ← CHKSYS .bind_open_src srcname (openPath src)
  let d ← CHKSYS .bind_open_dst dstname (openPath dst)
  let v ← CHKSYS .bind_mount dstname (mountBind s d)
  CHKSYS .bind_close_dst dstname (.ok ())
  CHKSYS .bind_close_src srcname (.ok ())
  pure v

/-! ## `merge` (lines 73-172) -/

/-- The `strlen` of a name: its bytes. -/
def strlen (name : Name) : Nat := name.utf8ByteSize

/-- Lines 114 and 161, `sprintf(tail, "%s/", d->d_name)` on the static buffer
`outpath[PATH_MAX]`, with `tail` the offset of the NUL that ends the string in
it: the name, a slash and a NUL are written from `tail` on. The result is the
offset of the new NUL, which the `strchr` of line 75 finds in the next frame.
Nothing checks that the bytes fit. -/
def sprintfOutpath (tail : Nat) (name : Name) : Sys Nat := fun w =>
  if tail + strlen name + 2 ≤ PATH_MAX then (.done (tail + strlen name + 1), w)
  else (.overrun, w)

/-- The scan of lines 84-92: whether the frame has to explode. -/
def scanTop (base : Node) : List Dirent → Sys Bool
  | [] => do
    match ← syscall .readdir "" (.ok ()) with
    | .error _ => die 1
    | .ok _ => pure false
  | d :: rest => do
    match ← syscall .readdir d.d_name (.ok ()) with
    | .error _ => die 1
    | .ok _ =>
      if isDot d.d_name then scanTop base rest
      else do
        match ← syscall .fstatat_scan d.d_name (fstatat base d.d_name) with
        | .error _ => pure true
        | .ok st =>
          if (d.d_type == .DT_DIR) != st.isDir then pure true
          else scanTop base rest

/-- The body of the loop of lines 104-124, pass 1 of the explode path, on one
entry of top. `recur` is `merge`, `tail` the offset of the NUL in `outpath`
(line 116 puts the NUL back after the call). -/
def pass1Body (recur : Node → Node → Option Node → Name → State → Nat → Sys Node)
    (base top : Node) (tail : Nat) (d : Dirent) (out : Ents) : Sys Ents :=
  match d.d_type with
  | .DT_DIR => do
    let out1 ← CHKSYS .mkdirat_top d.d_name (createAt out d.d_name emptyDir)
    match ← syscall .openat_base_pass1 d.d_name (openDir base d.d_name) with
    | .error _ => do
      let v ← bindmntat d.d_name d.d_name (find d.d_name top.ents) (find d.d_name out1)
      pure (setEnt d.d_name v out1)
    | .ok b => do
      let t ← CHKSYS .openat_top_pass1 d.d_name (openDir top d.d_name)
      let tail1 ← sprintfOutpath tail d.d_name
      let v ← recur b t (find d.d_name out1) d.d_name .kSkeleton tail1
      pure (setEnt d.d_name v out1)
  | .DT_LNK => do
    let buf ← do_readlinkat top d.d_name
    CHKSYS .symlinkat_top d.d_name (createAt out d.d_name (.lnk buf))
  | .DT_OTHER => do
    let out1 ← CHKSYS .mknodat_top d.d_name (createAt out d.d_name emptyFile)
    let v ← bindmntat d.d_name d.d_name (find d.d_name top.ents) (find d.d_name out1)
    pure (setEnt d.d_name v out1)

/-- The body of the loop of lines 125-145, pass 2 of the explode path, on one
entry of base. -/
def pass2Body (base : Node) (d : Dirent) (out : Ents) : Sys Ents :=
  match d.d_type with
  | .DT_DIR => do
    match ← syscall .mkdirat_base d.d_name (createAt out d.d_name emptyDir) with
    | .error e => if e = EEXIST then pure out else die 1
    | .ok out1 => do
      let v ← bindmntat d.d_name d.d_name (find d.d_name base.ents) (find d.d_name out1)
      pure (setEnt d.d_name v out1)
  | .DT_LNK => do
    let buf ← do_readlinkat base d.d_name
    match ← syscall .symlinkat_base d.d_name (createAt out d.d_name (.lnk buf)) with
    | .error e => if e = EEXIST then pure out else die 1
    | .ok out1 => pure out1
  | .DT_OTHER => do
    match ← syscall .mknodat_base d.d_name (createAt out d.d_name emptyFile) with
    | .error e => if e = EEXIST then pure out else die 1
    | .ok out1 => do
      let v ← bindmntat d.d_name d.d_name (find d.d_name base.ents) (find d.d_name out1)
      pure (setEnt d.d_name v out1)

/-- The body of the loop of lines 156-167, the stack path, on one entry of top
(line 163 puts the NUL back after the call). -/
def stackBody (recur : Node → Node → Option Node → Name → State → Nat → Sys Node)
    (base top : Node) (tail : Nat) (d : Dirent) (out : Ents) : Sys Ents :=
  match d.d_type with
  | .DT_DIR => do
    let b ← CHKSYS .openat_base_stack d.d_name (openDir base d.d_name)
    let t ← CHKSYS .openat_top_stack d.d_name (openDir top d.d_name)
    let tail1 ← sprintfOutpath tail d.d_name
    let v ← recur b t (find d.d_name out) d.d_name .kBase tail1
    pure (setEnt d.d_name v out)
  | _ => do
    let v ← bindmntat d.d_name d.d_name (find d.d_name top.ents) (find d.d_name out)
    pure (setEnt d.d_name v out)

/-- Lines 95-149: the explode path of a frame. -/
def explodeFrame (recur : Node → Node → Option Node → Name → State → Nat → Sys Node)
    (base top : Node) (slot : Option Node) (outname : Name) (state : State) (tail : Nat) :
    Sys Node := do
  let slot1 ← (if state ≠ .kSkeleton then CHKSYS .mount_tmpfs outname (mountTmpfs slot)
               else pure slot)
  let out ← CHKSYS .openat_out_explode outname (openSlot slot1)
  let es1 ← forEnt (pass1Body recur base top tail) (dirStream top) out.ents
  let es2 ← forEnt (pass2Body base) (dirStream base) es1
  let r ← syscall .faccessat "." (faccessatW base)
  let mode := (match r with
    | .error _ => 0o555
    | .ok _ => 0o1777)
  CHKSYS .fchmod outname (.ok ())
  CHKSYS .close_out_explode outname (.ok ())
  pure (chmodDir mode es2)

/-- Lines 151-168: the stack path of a frame. -/
def stackFrame (recur : Node → Node → Option Node → Name → State → Nat → Sys Node)
    (base top : Node) (slot : Option Node) (outname : Name) (state : State) (tail : Nat) :
    Sys Node := do
  let slot1 ← (if state ≠ .kBase then some <$> bindmntat "." outname (some base) slot
               else pure slot)
  let out ← CHKSYS .openat_out_stack outname (openSlot slot1)
  let es ← forEnt (stackBody recur base top tail) (dirStream top) out.ents
  CHKSYS .close_out_stack outname (.ok ())
  pure (.dir out.mode ⟨out.rok, out.wok⟩ es)

/-- The function `merge`: weave the directories `base` and `top` into the output
slot `outfd/outname`, whose present content is `slot`; the result is the content
of the slot afterwards. `tail` is the offset of the NUL in `outpath` that line 75
finds. -/
def merge : Nat → Node → Node → Option Node → Name → State → Nat → Sys Node
  | 0, _, _, _, _, _, _ => starve
  | fuel + 1, base, top, slot, outname, state, tail => do
    let explode ← scanTop base (dirStream top)
    let v ← (if explode then explodeFrame (merge fuel) base top slot outname state tail
             else stackFrame (merge fuel) base top slot outname state tail)
    CHKSYS .closedir_top outname (.ok ())
    CHKSYS .closedir_base outname (.ok ())
    pure v

/-- The top-level call of line 210: `merge(oldroot, overlay, AT_FDCWD, "/newroot",
kRoot)` in a world without injected faults and with an empty trace. The slot is
the directory made by `mkdir("/tmp/newroot", 0755)` in line 205, and `outpath`
holds its initial string `/`. -/
def weave (fuel : Nat) (base top : Node) : Outcome Node × World :=
  merge fuel base top (some emptyDir) "/newroot" .kRoot 1 ⟨[], [], []⟩

/-! ## `main` (lines 174-220) -/

/-- The test `strchr(s, '=')` of line 176. -/
def hasEq (s : String) : Bool := s.data.contains '='

/-- The loop of line 176, `while (e < argc && strchr(argv[e], '=')) putenv(argv[e++])`,
on the arguments from index `e` on: the final `e` and the strings given to
`putenv`, in order. -/
def envLoop : List String → Nat → List String → Nat × List String
  | [], e, puts => (e, puts)
  | a :: rest, e, puts => if hasEq a then envLoop rest (e + 1) (puts ++ [a]) else (e, puts)

/-- What `main` does, in order, as long as every call succeeds. -/
inductive Step where
  /-- Line 176, `putenv(argv[e])`. -/
  | putenv (binding : String)
  /-- Line 177, `errx(1, "usage: ...")`. -/
  | usage (status : Nat)
  /-- Line 179, `getcwd`. -/
  | getcwd
  /-- Line 184, `unshare(CLONE_NEWUSER|CLONE_NEWNS)`. -/
  | unshare
  /-- Lines 185-187, `deny` written to `/proc/self/setgroups`. -/
  | setgroups
  /-- Lines 189-192, the uid map. -/
  | uid_map
  /-- Lines 193-196, the gid map. -/
  | gid_map
  /-- Line 199, `open("/", kOpendirFlags)`. -/
  | open_oldroot
  /-- Line 200, `open(argv[1], kOpendirFlags)`. -/
  | open_overlay (tree : String)
  /-- Line 201, `chdir("/proc/self/fd")`. -/
  | chdir_fd
  /-- Line 204, the tmpfs on `/tmp`. -/
  | mount_tmp
  /-- Line 205, `mkdir("/tmp/newroot", 0755)`. -/
  | mkdir_newroot
  /-- Line 206, `mkdir("/tmp/oldroot", 0755)`. -/
  | mkdir_oldroot
  /-- Line 207, `pivot_root("/tmp", "/tmp/oldroot")`. -/
  | pivot_tmp
  /-- Line 210, the call of `merge`. -/
  | merge
  /-- Line 213, `pivot_root("/newroot", "/newroot")`. -/
  | pivot_newroot
  /-- Line 214, `umount2("/", MNT_DETACH)`. -/
  | umount
  /-- Line 217, `chdir(cwd)`. -/
  | chdir_cwd
  /-- Line 218, `execvp(argv[e], argv+e)`. -/
  | execvp (file : String) (args : List String)
  deriving DecidableEq

/-- Whether a step is a namespace or mount operation. -/
def Step.isNamespaceOrMount : Step → Bool
  | .unshare | .setgroups | .uid_map | .gid_map | .mount_tmp | .pivot_tmp | .merge
  | .pivot_newroot | .umount => true
  | _ => false

/-- The function `main` on the argument vector `argv` (`argc` is its length). -/
def main (argv : List String) : List Step :=
  let r := envLoop (argv.drop 2) 2 []
  let e := r.1
  let puts := r.2.map Step.putenv
  if e ≥ argv.length then puts ++ [.usage 1]
  else
    puts ++ [.getcwd, .unshare, .setgroups, .uid_map, .gid_map, .open_oldroot,
      .open_overlay (argv.getD 1 ""), .chdir_fd, .mount_tmp, .mkdir_newroot,
      .mkdir_oldroot, .pivot_tmp, .merge, .pivot_newroot, .umount, .chdir_cwd,
      .execvp (argv.getD e "") (argv.drop e)]

/-! ## Predicates of the specification -/

/-- Names of a directory listing: none is `.` or `..`, none occurs twice. -/
def namesOk : Ents → Bool
  | [] => true
  | (n, _) :: rest => !isDot n && (find n rest).isNone && namesOk rest

mutual
/-- A tree as a file system holds it: entry names are distinct and not `.` or
`..`; a symlink target has no NUL and at most `PATH_MAX` bytes. -/
def Node.wf : Node → Bool
  | .dir _ _ es => namesOk es && wfEnts es
  | .lnk t => decide (t.length ≤ PATH_MAX) && !t.contains (Char.ofNat 0)
  | .oth _ => true
/-- Every entry is well formed. -/
def wfEnts : Ents → Bool
  | [] => true
  | (_, n) :: rest => Node.wf n && wfEnts rest
end

mutual
/-- Every directory of the tree, the tree itself included, can be opened for
reading by the invoking user. -/
def Node.readable : Node → Bool
  | .dir _ a es => a.rok && readableEnts es
  | _ => true
/-- Every entry is readable. -/
def readableEnts : Ents → Bool
  | [] => true
  | (_, n) :: rest => Node.readable n && readableEnts rest
end

mutual
/-- The path of every directory below the tree fits in `outpath`, when `tail` is
the length of the path of the tree itself: for a directory entry `name`, the
bytes `name`, `/` and NUL written at `tail` end within `PATH_MAX`. -/
def Node.fits : Node → Nat → Bool
  | .dir _ _ es, tail => fitsEnts es tail
  | _, _ => true
/-- Every directory among the entries fits. -/
def fitsEnts : Ents → Nat → Bool
  | [], _ => true
  | (name, n) :: rest, tail =>
    (!n.isDir || (decide (tail + strlen name + 2 ≤ PATH_MAX) &&
      Node.fits n (tail + strlen name + 1))) && fitsEnts rest tail
end

/-- The path lies strictly below a directory that base and top both have as a
directory and that the invoking user cannot open in base. -/
def lost : Node → Node → List Name → Bool
  | _, _, [] => false
  | b, t, name :: rest =>
    match find name b.ents, find name t.ents with
    | some bc, some tc =>
      bc.isDir && tc.isDir && ((!bc.rok && !rest.isEmpty) || lost bc tc rest)
    | _, _ => false

/-- Some proper ancestor of the path is a non-directory in the tree. -/
def Node.cuts : Node → List Name → Bool
  | _, [] => false
  | .dir _ _ es, name :: rest =>
    match find name es with
    | some c => Node.cuts c rest
    | none => false
  | _, _ :: _ => true

/-- The condition of the spec for stacking: every entry of top that is not `.` or
`..` has a same-named entry in base of the same directory-ness. -/
def Stackable (base top : Node) : Prop :=
  ∀ e ∈ top.ents, isDot e.1 = false →
    ∃ b, find e.1 base.ents = some b ∧ (e.2.isDir = true ↔ b.isDir = true)

/-- A failed call. -/
def Event.failed (ev : Event) : Bool := ev.errno.isSome

/-- The failures the spec names as the only ones that do not end the process:
`EEXIST` from `mkdirat`, `symlinkat` or `mknodat` in pass 2. -/
def swallowed (ev : Event) : Bool :=
  (ev.call == .mkdirat_base || ev.call == .symlinkat_base || ev.call == .mknodat_base)
    && ev.errno == some EEXIST

/-- The failures after which `merge` goes on by design: those of `swallowed`;
`ENOENT` from the `fstatat` of the scan (base has no such entry: the frame
explodes); `ENOENT` or `ENOTDIR` from the `openat` of the base entry in pass 1
(base has no directory of that name: top's directory is bound); `EACCES` from
`faccessat` (the base directory is not writable: mode 0555). -/
def tolerated (ev : Event) : Bool :=
  swallowed ev
    || (ev.call == .fstatat_scan && ev.errno == some ENOENT)
    || (ev.call == .openat_base_pass1 &&
        (ev.errno == some ENOENT || ev.errno == some ENOTDIR))
    || (ev.call == .faccessat && ev.errno == some EACCES)

/-- The calls whose result `merge` tests itself, outside `CHKSYS`: the `fstatat`
of the scan (line 86), the `openat` of the base entry in pass 1 (line 107) and
`faccessat` (line 146). -/
def Call.tested (c : Call) : Bool :=
  c == .fstatat_scan || c == .openat_base_pass1 || c == .faccessat

/-- The failures that must end the process: every failure of a call that `merge`
does not test itself, but for the `EEXIST` of `swallowed`. -/
def fatal (ev : Event) : Bool := ev.failed && !ev.call.tested && !swallowed ev

/-- A failed call of the stack path or of `bindmntat` for lack of the entry: the
`openat` of the base entry on the stack path with `ENOENT` or `ENOTDIR`, or any
failure of the `openat` of a bind source, of a bind target or of the bind
`mount`. -/
def Event.lacks (ev : Event) : Bool :=
  match ev.call with
  | .openat_base_stack => ev.errno == some ENOENT || ev.errno == some ENOTDIR
  | .bind_open_src => ev.errno.isSome
  | .bind_open_dst => ev.errno.isSome
  | .bind_mount => ev.errno.isSome
  | _ => false

/-- Whether the process was left through `err`, `errx` or `CHKSYS`. -/
def Outcome.isAbort {α : Type} : Outcome α → Bool
  | .abort _ => true
  | _ => false

mutual
/-- Equality of trees is decidable. -/
def Node.decEq : (a b : Node) → Decidable (a = b)
  | .dir m w es, .dir m2 w2 es2 =>
    if h1 : m = m2 then
      if h2 : w = w2 then
        match decEqEnts es es2 with
        | isTrue h3 => isTrue (by rw [h1, h2, h3])
        | isFalse h3 => isFalse (fun h => h3 (by injection h))
      else isFalse (fun h => h2 (by injection h))
    else isFalse (fun h => h1 (by injection h))
  | .lnk t, .lnk t2 =>
    if h : t = t2 then isTrue (by rw [h]) else isFalse (fun h2 => h (by injection h2))
  | .oth s, .oth s2 =>
    if h : s = s2 then isTrue (by rw [h]) else isFalse (fun h2 => h (by injection h2))
  | .dir _ _ _, .lnk _ => isFalse (fun h => by cases h)
  | .dir _ _ _, .oth _ => isFalse (fun h => by cases h)
  | .lnk _, .dir _ _ _ => isFalse (fun h => by cases h)
  | .lnk _, .oth _ => isFalse (fun h => by cases h)
  | .oth _, .dir _ _ _ => isFalse (fun h => by cases h)
  | .oth _, .lnk _ => isFalse (fun h => by cases h)
/-- Equality of entry lists is decidable. -/
def decEqEnts : (a b : Ents) → Decidable (a = b)
  | [], [] => isTrue rfl
  | [], _ :: _ => isFalse (fun h => by cases h)
  | _ :: _, [] => isFalse (fun h => by cases h)
  | (n, v) :: r, (n2, v2) :: r2 =>
    if h1 : n = n2 then
      match Node.decEq v v2 with
      | isTrue h2 =>
        match decEqEnts r r2 with
        | isTrue h3 => isTrue (by rw [h1, h2, h3])
        | isFalse h3 => isFalse (fun h => h3 (by injection h))
      | isFalse h2 => isFalse (fun h => h2 (by injection h with h4 _; injection h4))
    else isFalse (fun h => h1 (by injection h with h4 _; injection h4))
end

instance : DecidableEq Node := Node.decEq

/-- Whether the run came to its end without leaving the process. -/
def finished (r : Outcome Node × World) : Bool :=
  match r.1 with
  | .done _ => true
  | _ => false

/-- The object visible at a path of the output tree of a finished run. -/
def seen (r : Outcome Node × World) (p : List Name) : Option Node :=
  match r.1 with
  | .done o => o.walk p
  | _ => none

/-- The output tree of a finished run. -/
def output (r : Outcome Node × World) : Option Node :=
  match r.1 with
  | .done o => some o
  | _ => none

/-! ## Predicates used in the proofs -/

/-- The failures after which `merge` goes on, whatever the errno: those of
`swallowed` and every failure of a tested call. -/
def goesOn (ev : Event) : Bool := swallowed ev || ev.call.tested

/-- A failed call after which `merge` does not go on. -/
def Event.bad (ev : Event) : Bool := ev.failed && !goesOn ev

/-- The test of the scan on one entry of top: no same-named entry in base, or one
of the other directory-ness. -/
def mismatch (base : Node) (d : Dirent) : Bool :=
  match find d.d_name base.ents with
  | none => true
  | some b => (d.d_type == .DT_DIR) != b.isDir

/-- Whether the scan of a stream finds an entry that forces the explode path. -/
def explodes (base : Node) (ds : List Dirent) : Bool :=
  ds.any (fun d => !isDot d.d_name && mismatch base d)

/-- A bind mount whose source exists and whose target exists with the
directory-ness of the source. -/
def BindRec.ok (r : BindRec) : Prop := ∃ k, r.src = some k ∧ r.dst = some k

/-- A world in which the kernel injects no fault, every bind mount so far had a
target of the directory-ness of its source, and no call so far failed for lack
of the entry. -/
def Quiet (w : World) : Prop :=
  w.faults = [] ∧ (∀ r ∈ w.binds, r.ok) ∧ ∀ ev ∈ w.trace, ev.lacks = false

/-- In every quiet world the computation ends in a quiet world; when it
finishes, its result satisfies `Q`; and it does finish when `S` holds. -/
def Yields {α : Type} (S : Prop) (m : Sys α) (Q : α → Prop) : Prop :=
  ∀ w, Quiet w → Quiet (m w).2 ∧ (∀ a, (m w).1 = .done a → Q a) ∧
    (S → ∃ a, (m w).1 = .done a)

/-- The output entry `o` for a name whose entry in top is `t` and in base is `b`:
the base entry when top has none; the weave `W` of the two when top's is a
directory and base's a directory that was opened; the top entry otherwise. -/
def Res (W : Node → Node → Node → Prop) (t b o : Option Node) : Prop :=
  match t, b with
  | none, _ => o = b
  | some tn, some bn =>
    if tn.isDir = true ∧ bn.rok = true then ∃ ov, o = some ov ∧ W bn tn ov
    else o = some tn
  | some tn, none => o = some tn

/-- The directory `o` is the weave of the directories `b` and `t`, to a nesting
depth below `n`. -/
def WovenN : Nat → Node → Node → Node → Prop
  | 0, _, _, _ => False
  | n + 1, b, t, o =>
    o.isDir = true ∧
      ∀ name, Res (WovenN n) (find name t.ents) (find name b.ents) (find name o.ents)

/-- What a frame needs of its output slot: a directory for `kRoot`, an empty
directory for `kSkeleton`, the base directory itself for `kBase`. -/
def SlotOK (st : State) (base : Node) (slot : Option Node) : Prop :=
  match st with
  | .kRoot => ∃ m w es, slot = some (.dir m w es)
  | .kSkeleton => slot = some emptyDir
  | .kBase => slot = some base

/-- The mode of the output directory of a frame: that of the access check when the
frame explodes, that of the base directory when it stacks. -/
def frameMode (base top : Node) : Nat :=
  if explodes base (dirStream top) then (if base.wok then 0o1777 else 0o555) else base.mode

/-- Every name with an entry in `src` has its output entry in `out`; the other
names have the entry `other` gives. -/
def Placed (W : Node → Node → Node → Prop) (src : Ents) (other : Name → Option Node)
    (bes out : Ents) : Prop :=
  ∀ name, match find name src with
    | some t => Res W (some t) (find name bes) (find name out)
    | none => find name out = other name

/-- What makes a frame finish: every directory of base and of top can be opened,
and the paths of the directories of top fit in `outpath`. -/
def Smooth (b t : Node) (tail : Nat) : Prop :=
  b.readable = true ∧ t.readable = true ∧ t.fits tail = true

/-- What the proofs need of the recursive call: on well-formed directories, with
fuel above the depth of top and a fitting slot, a finished call leaves the
weave, and the call finishes on a smooth pair. -/
def RecOK (n : Nat) (recur : Node → Node → Option Node → Name → State → Nat → Sys Node) : Prop :=
  ∀ b t slot name st tail, b.isDir = true → t.isDir = true → b.wf = true → t.wf = true →
    t.depth < n → SlotOK st b slot →
    Yields (Smooth b t tail) (recur b t slot name st tail)
      (fun o => WovenN n b t o ∧ o.mode = frameMode b t)

/-! ## Example trees -/

/-- A directory of mode 0755 that the invoking user can read and cannot write. -/
def roDir (es : Ents) : Node := .dir 0o755 ⟨true, false⟩ es

/-- Scenario S1, base: `/etc/hosts` with content `A`. -/
def s1Base : Node := roDir [("etc", roDir [("hosts", .oth "A")])]
/-- Scenario S1, top: `/etc/hosts` with content `B`. -/
def s1Top : Node := roDir [("etc", roDir [("hosts", .oth "B")])]

/-- Scenario S2, base: `/usr/bin/ls`. -/
def s2Base : Node := roDir [("usr", roDir [("bin", roDir [("ls", .oth "ls")])])]
/-- Scenario S2, top: `/opt/app/run`. -/
def s2Top : Node := roDir [("opt", roDir [("app", roDir [("run", .oth "run")])])]

/-- Scenario S3, base: `/var` is a directory (holding `x`). -/
def s3Base : Node := roDir [("var", roDir [("x", .oth "x")])]
/-- Scenario S3, top: `/var` is a symlink to `/data`. -/
def s3Top : Node := roDir [("var", .lnk "/data".toList)]

/-- Scenario S5, the directory `/bin` of base: `sh` and `dash` are files. -/
def s5BaseBin : Node := roDir [("sh", .oth "sh"), ("dash", .oth "dash")]
/-- Scenario S5, the directory `/bin` of top: `sh` is a symlink to `/bin/dash`. -/
def s5TopBin : Node := roDir [("sh", .lnk "/bin/dash".toList)]
/-- Scenario S5, base. -/
def s5Base : Node := roDir [("bin", s5BaseBin)]
/-- Scenario S5, top. -/
def s5Top : Node := roDir [("bin", s5TopBin)]

/-- A base whose directory `a` holds a file `f`. -/
def hidBase : Node := roDir [("a", roDir [("f", .oth "1")])]
/-- A top in which `a` is a file. -/
def hidTop : Node := roDir [("a", .oth "2")]

/-- A base whose directory `lib/x` holds a file `y`, next to a file `lib/z`. -/
def deepBase : Node :=
  roDir [("lib", roDir [("x", roDir [("y", .oth "Y")]), ("z", .oth "Z")])]
/-- A top in which `lib/x` is a file. -/
def deepTop : Node := roDir [("lib", roDir [("x", .oth "X")])]

/-- A base in which `s` is a symlink. -/
def lnkBase : Node := roDir [("s", .lnk "target".toList)]
/-- A top in which `s` is a file. -/
def lnkTop : Node := roDir [("s", .oth "file")]

/-- An empty directory of mode 0755 that the invoking user cannot write. -/
def emptyRo : Node := roDir []

/-- A top with a directory `a` that base lacks. -/
def onlyTop : Node := roDir [("a", roDir [])]

/-- A base in which `a` is a file. -/
def fileBase : Node := roDir [("a", .oth "1")]

/-- A directory of mode 0700 of another user: the invoking user can neither read
nor write it. -/
def noDir (es : Ents) : Node := .dir 0o700 ⟨false, false⟩ es

/-- A base whose directory `a` cannot be opened and holds a file `f`. -/
def shutBase : Node := roDir [("a", noDir [("f", .oth "1")])]
/-- A top with a directory `a` holding a file `g`: it stacks on `shutBase`. -/
def shutTop : Node := roDir [("a", roDir [("g", .oth "2")])]
/-- A top with a directory `a` holding a file `g`, and a file `n` that
`shutBase` lacks: the root frame explodes. -/
def shutTopNew : Node := roDir [("a", roDir [("g", .oth "2")]), ("n", .oth "3")]

/-- A name of 255 bytes, the longest a directory entry can have. -/
def longName : Name := String.mk (List.replicate 255 'd')

/-- A chain of `n` nested directories named `longName`. -/
def chain : Nat → Node
  | 0 => roDir []
  | n + 1 => roDir [(longName, chain n)]

/-- The discipline of the trace under any faults, with `new` the calls the
computation issues from the world `w` on. When it finishes, `merge` went on after
every failure among `new`, and the result satisfies `P`; the same holds of `new`
when `outpath` is overrun. When it leaves the process, this holds of all calls
but the last, and the last is not a failure after which `merge` goes on. It never
runs out of fuel. -/
def Handles {α : Type} (m : Sys α) (P : α → Prop) : Prop :=
  ∀ w, ∃ new, (m w).2.trace = w.trace ++ new ∧
    match (m w).1 with
    | .done a => (∀ e ∈ new, e.bad = false) ∧ P a
    | .abort _ => ∃ pre ev, new = pre ++ [ev] ∧ (∀ e ∈ pre, e.bad = false) ∧
        (ev.failed && goesOn ev) = false
    | .overrun => ∀ e ∈ new, e.bad = false
    | .starved => False

/-- The computation logs no swallowed `EEXIST`. -/
def Plain {α : Type} (m : Sys α) : Prop :=
  ∀ w, ∃ new, (m w).2.trace = w.trace ++ new ∧ ∀ e ∈ new, swallowed e = false

/-- What the proofs under faults need of the recursive call. -/
def RecHandles (n : Nat) (recur : Node → Node → Option Node → Name → State → Nat → Sys Node) :
    Prop :=
  ∀ b t slot name st tail, t.depth < n →
    Handles (recur b t slot name st tail) (fun _ => True)

/-! ## The argument vector of `main` -/

theorem envLoop_eq (l : List String) : ∀ (e : Nat) (puts : List String),
    envLoop l e puts = (e + (l.takeWhile hasEq).length, puts ++ l.takeWhile hasEq) := by
  induction l with
  | nil => intro e puts; simp [envLoop]
  | cons a rest ih =>
    intro e puts
    by_cases h : hasEq a = true
    · simp [envLoop, h, ih, List.takeWhile]; omega
    · simp [envLoop, h, List.takeWhile]

theorem takeWhile_all (l : List String) (h : ∀ a ∈ l, hasEq a = true) :
    l.takeWhile hasEq = l := by
  induction l with
  | nil => rfl
  | cons a rest ih =>
    have ha := h a (List.mem_cons_self _ _)
    simp only [List.takeWhile, ha]
    rw [ih (fun b hb => h b (List.mem_cons_of_mem _ hb))]

theorem takeWhile_split (pre post : List String) (a : String)
    (hpre : ∀ b ∈ pre, hasEq b = true) (ha : hasEq a = false) :
    (pre ++ a :: post).takeWhile hasEq = pre := by
  induction pre with
  | nil => simp [List.takeWhile, ha]
  | cons b rest ih =>
    have hb := hpre b (List.mem_cons_self _ _)
    have ih2 := ih (fun c hc => hpre c (List.mem_cons_of_mem _ hc))
    rw [List.cons_append, List.takeWhile_cons, hb]
    simp only [ih2, if_true]

theorem getD_of_mem_drop (argv : List String) (a : String) (k : Nat) (h : a ∈ argv.drop k) :
    ∃ i, k ≤ i ∧ i < argv.length ∧ argv.getD i "" = a := by
  obtain ⟨n, hn, rfl⟩ := List.mem_iff_getElem.mp h
  simp at hn
  refine ⟨k + n, by omega, by omega, ?_⟩
  simp [List.getD, List.getElem?_eq_getElem (show k + n < argv.length by omega)]

/-! ## The process monad in a quiet world -/

theorem bind_run {α β : Type} (m : Sys α) (f : α → Sys β) (w : World) :
    (m >>= f) w = match m w with
      | (.done a, w1) => f a w1
      | (.abort c, w1) => (.abort c, w1)
      | (.overrun, w1) => (.overrun, w1)
      | (.starved, w1) => (.starved, w1) := rfl

theorem pure_run {α : Type} (a : α) (w : World) : (pure a : Sys α) w = (.done a, w) := rfl

theorem lacks_none (c : Call) (arg : Name) : (Event.mk c arg none).lacks = false := by
  cases c <;> rfl

theorem yields_pure {α : Type} {S : Prop} {Q : α → Prop} {a : α} (h : Q a) :
    Yields S (Pure.pure a) Q := by
  intro w hw
  refine ⟨hw, ?_, fun _ => ⟨a, rfl⟩⟩
  intro b hb
  rw [pure_run] at hb
  injection hb with hb
  rw [← hb]; exact h

theorem yields_bind {α β : Type} {S : Prop} {m : Sys α} {f : α → Sys β} {P : α → Prop}
    {Q : β → Prop} (hm : Yields S m P) (hf : ∀ a, P a → Yields S (f a) Q) :
    Yields S (m >>= f) Q := by
  intro w hw
  obtain ⟨hq1, hp, hs⟩ := hm w hw
  rw [bind_run]
  rcases hrun : m w with ⟨o, w1⟩
  rw [hrun] at hq1 hp hs
  simp only at hq1 hp hs
  cases o with
  | done a => exact hf a (hp a rfl) w1 hq1
  | abort c =>
    refine ⟨hq1, fun b hb => (by cases hb), fun s => ?_⟩
    obtain ⟨a, ha⟩ := hs s
    cases ha
  | overrun =>
    refine ⟨hq1, fun b hb => (by cases hb), fun s => ?_⟩
    obtain ⟨a, ha⟩ := hs s
    cases ha
  | starved =>
    refine ⟨hq1, fun b hb => (by cases hb), fun s => ?_⟩
    obtain ⟨a, ha⟩ := hs s
    cases ha

theorem yields_mono {α : Type} {S : Prop} {m : Sys α} {P Q : α → Prop}
    (hm : Yields S m P) (h : ∀ a, P a → Q a) : Yields S m Q := by
  intro w hw
  obtain ⟨hq1, hp, hs⟩ := hm w hw
  exact ⟨hq1, fun a ha => h a (hp a ha), hs⟩

theorem yields_weaken {α : Type} {S T : Prop} {m : Sys α} {Q : α → Prop}
    (hm : Yields S m Q) (h : T → S) : Yields T m Q := by
  intro w hw
  obtain ⟨hq1, hp, hs⟩ := hm w hw
  exact ⟨hq1, hp, fun t => hs (h t)⟩

theorem yields_map {α β : Type} {S : Prop} {m : Sys α} {g : α → β} {P : α → Prop}
    {Q : β → Prop} (hm : Yields S m P) (h : ∀ a, P a → Q (g a)) : Yields S (g <$> m) Q := by
  show Yields S (m >>= fun x => Pure.pure (g x)) Q
  exact yields_bind hm (fun a ha => yields_pure (h a ha))

theorem syscall_quiet {α : Type} {S : Prop} (c : Call) (arg : Name) (nat : Except Nat α)
    (hl : (Event.mk c arg (errnoOf nat)).lacks = false) :
    Yields S (syscall c arg nat) (fun r => r = nat) := by
  intro w hw
  obtain ⟨hf, hb, ht⟩ := hw
  obtain ⟨fs, tr, bs⟩ := w
  simp only at hf
  subst hf
  refine ⟨⟨rfl, hb, ?_⟩, ?_, fun _ => ⟨nat, rfl⟩⟩
  · intro ev hev
    rcases List.mem_append.mp hev with h1 | h1
    · exact ht ev h1
    · rw [List.mem_singleton.mp h1]; exact hl
  · intro a ha
    injection ha with ha
    exact ha.symm

theorem CHKSYS_quiet {α : Type} {S : Prop} (c : Call) (arg : Name) (nat : Except Nat α) (a : α)
    (h : nat = .ok a) : Yields S (CHKSYS c arg nat) (fun r => r = a) := by
  unfold CHKSYS
  subst h
  refine yields_bind (syscall_quiet c arg _ (lacks_none c arg)) ?_
  intro r hr
  subst hr
  exact yields_pure rfl

theorem die_quiet {α : Type} {S : Prop} (s : Nat) (Q : α → Prop) (hS : ¬ S) :
    Yields S (die s : Sys α) Q := by
  intro w hw
  exact ⟨hw, fun a ha => (by cases ha), fun h => absurd h hS⟩

/-- A call under `CHKSYS` whose failure is not one for lack of the entry: when
it returns, the file system gave the result; it returns when `S` holds. -/
theorem CHKSYS_try {α : Type} {S : Prop} (c : Call) (arg : Name) (nat : Except Nat α)
    (hl : (Event.mk c arg (errnoOf nat)).lacks = false) (hS : S → ∃ a, nat = .ok a) :
    Yields S (CHKSYS c arg nat) (fun r => nat = .ok r) := by
  unfold CHKSYS
  refine yields_bind (syscall_quiet c arg nat hl) ?_
  intro r hr
  subst hr
  cases r with
  | ok a => exact yields_pure rfl
  | error e =>
    refine die_quiet 255 _ ?_
    intro h
    obtain ⟨a, ha⟩ := hS h
    cases ha

theorem sprintfOutpath_quiet {S : Prop} (tail : Nat) (name : Name)
    (hS : S → tail + strlen name + 2 ≤ PATH_MAX) :
    Yields S (sprintfOutpath tail name) (fun r => r = tail + strlen name + 1) := by
  intro w hw
  unfold sprintfOutpath
  by_cases h : tail + strlen name + 2 ≤ PATH_MAX
  · rw [if_pos h]
    refine ⟨hw, ?_, fun _ => ⟨_, rfl⟩⟩
    intro a ha
    injection ha with ha
    exact ha.symm
  · rw [if_neg h]
    exact ⟨hw, fun a ha => (by cases ha), fun s => absurd (hS s) h⟩

theorem logBind_quiet {S : Prop} (r : BindRec) (h : r.ok) :
    Yields S (logBind r) (fun _ => True) := by
  intro w hw
  refine ⟨⟨hw.1, ?_, hw.2.2⟩, fun _ _ => trivial, fun _ => ⟨(), rfl⟩⟩
  intro x hx
  rcases List.mem_append.mp hx with h1 | h1
  · exact hw.2.1 x h1
  · rw [List.mem_singleton.mp h1]; exact h

theorem bindmntat_quiet {S : Prop} (sn dn : Name) (s d : Node) (h : s.isDir = d.isDir) :
    Yields S (bindmntat sn dn (some s) (some d)) (fun v => v = s) := by
  unfold bindmntat
  refine yields_bind (logBind_quiet _ ⟨s.isDir, rfl, by simp [h]⟩) ?_
  intro _ _
  refine yields_bind (CHKSYS_quiet _ _ _ s rfl) ?_
  intro a ha
  refine yields_bind (CHKSYS_quiet _ _ _ d rfl) ?_
  intro b hb
  subst ha; subst hb
  refine yields_bind (CHKSYS_quiet _ _ _ a (by simp [mountBind, h])) ?_
  intro v hv
  refine yields_bind (CHKSYS_quiet _ _ _ () rfl) ?_
  intro _ _
  refine yields_bind (CHKSYS_quiet _ _ _ () rfl) ?_
  intro _ _
  exact yields_pure hv

/-! ## Entry lists -/

theorem find_append (name : Name) (a b : Ents) :
    find name (a ++ b) = match find name a with
      | some v => some v
      | none => find name b := by
  induction a with
  | nil => rfl
  | cons e rest ih =>
    obtain ⟨n, v⟩ := e
    by_cases h : n = name
    · simp [find, h]
    · simp [find, h, ih]

theorem find_append_none (name : Name) (a b : Ents) (h : find name a = none) :
    find name (a ++ b) = find name b := by
  rw [find_append, h]

theorem find_setEnt_same (name : Name) (v : Node) (es : Ents)
    (h : (find name es).isSome = true) : find name (setEnt name v es) = some v := by
  induction es with
  | nil => simp [find] at h
  | cons e rest ih =>
    obtain ⟨n, x⟩ := e
    by_cases hn : n = name
    · simp [setEnt, find, hn]
    · simp only [find, hn, if_false] at h
      simp [setEnt, find, hn, ih h]

theorem find_setEnt_other (name other : Name) (v : Node) (es : Ents) (h : other ≠ name) :
    find other (setEnt name v es) = find other es := by
  induction es with
  | nil => rfl
  | cons e rest ih =>
    obtain ⟨n, x⟩ := e
    by_cases hn : n = name
    · have hno : ¬ name = other := fun h2 => h h2.symm
      subst hn
      simp [setEnt, find, hno]
    · by_cases ho : n = other
      · subst ho
        simp [setEnt, find, hn]
      · simp [setEnt, find, hn, ho, ih]

theorem namesOk_cons (n : Name) (v : Node) (rest : Ents) :
    namesOk ((n, v) :: rest) = true ↔
      isDot n = false ∧ find n rest = none ∧ namesOk rest = true := by
  simp [namesOk, Option.isNone_iff_eq_none, and_assoc]

theorem namesOk_nodot (es : Ents) (h : namesOk es = true) : ∀ e ∈ es, isDot e.1 = false := by
  induction es with
  | nil => intro e he; cases he
  | cons x rest ih =>
    obtain ⟨n, v⟩ := x
    obtain ⟨h1, _, h3⟩ := (namesOk_cons n v rest).mp h
    intro e he
    rcases List.mem_cons.mp he with h4 | h4
    · rw [h4]; exact h1
    · exact ih h3 e h4

theorem namesOk_split (pre rest : Ents) (e : Name × Node)
    (h : namesOk (pre ++ e :: rest) = true) :
    find e.1 pre = none ∧ find e.1 rest = none ∧ find e.1 (pre ++ e :: rest) = some e.2 := by
  induction pre with
  | nil =>
    obtain ⟨n, v⟩ := e
    obtain ⟨_, h2, _⟩ := (namesOk_cons n v rest).mp h
    exact ⟨rfl, h2, by simp [find]⟩
  | cons x pre ih =>
    obtain ⟨n, v⟩ := x
    obtain ⟨_, h2, h3⟩ := (namesOk_cons n v (pre ++ e :: rest)).mp h
    obtain ⟨i1, i2, i3⟩ := ih h3
    have hne : n ≠ e.1 := by
      intro hn
      rw [hn, i3] at h2
      cases h2
    exact ⟨by simp [find, hne, i1], i2, by simp [find, hne, i3]⟩

theorem wfEnts_find (es : Ents) (h : wfEnts es = true) (name : Name) (c : Node)
    (hf : find name es = some c) : c.wf = true := by
  induction es with
  | nil => simp [find] at hf
  | cons x rest ih =>
    obtain ⟨n, v⟩ := x
    simp only [wfEnts, Bool.and_eq_true] at h
    by_cases hn : n = name
    · simp only [find, hn, if_true] at hf
      injection hf with hf
      rw [← hf]; exact h.1
    · simp only [find, hn, if_false] at hf
      exact ih h.2 hf

theorem wf_dir (m : Nat) (w : Access) (es : Ents) (h : (Node.dir m w es).wf = true) :
    namesOk es = true ∧ wfEnts es = true := by
  simpa [Node.wf] using h

theorem depth_find (es : Ents) (name : Name) (c : Node) (hf : find name es = some c) :
    c.depth ≤ depthEnts es := by
  induction es with
  | nil => simp [find] at hf
  | cons x rest ih =>
    obtain ⟨n, v⟩ := x
    by_cases hn : n = name
    · simp only [find, hn, if_true] at hf
      injection hf with hf
      rw [← hf]; simp [depthEnts]
    · simp only [find, hn, if_false] at hf
      have := ih hf
      simp only [depthEnts]
      omega

theorem depth_child (m : Nat) (w : Access) (es : Ents) (name : Name) (c : Node)
    (hf : find name es = some c) : c.depth < (Node.dir m w es).depth := by
  have := depth_find es name c hf
  simp only [Node.depth]
  omega

theorem isDir_iff (n : Node) : n.isDir = true ↔ ∃ m w es, n = .dir m w es := by
  cases n <;> simp [Node.isDir]

theorem rok_isDir (n : Node) (h : n.rok = true) : n.isDir = true := by
  cases n <;> simp_all [Node.rok, Node.isDir]

theorem readableEnts_find (es : Ents) (h : readableEnts es = true) (name : Name) (c : Node)
    (hf : find name es = some c) : c.readable = true := by
  induction es with
  | nil => simp [find] at hf
  | cons x rest ih =>
    obtain ⟨n, v⟩ := x
    simp only [readableEnts, Bool.and_eq_true] at h
    by_cases hn : n = name
    · simp only [find, hn, if_true] at hf
      injection hf with hf
      rw [← hf]; exact h.1
    · simp only [find, hn, if_false] at hf
      exact ih h.2 hf

theorem readable_dir (m : Nat) (a : Access) (es : Ents) (h : (Node.dir m a es).readable = true) :
    a.rok = true ∧ readableEnts es = true := by
  simpa [Node.readable] using h

theorem fitsEnts_find (es : Ents) (tail : Nat) (h : fitsEnts es tail = true) (name : Name)
    (c : Node) (hf : find name es = some c) (hc : c.isDir = true) :
    tail + strlen name + 2 ≤ PATH_MAX ∧ c.fits (tail + strlen name + 1) = true := by
  induction es with
  | nil => simp [find] at hf
  | cons x rest ih =>
    obtain ⟨n, v⟩ := x
    simp only [fitsEnts, Bool.and_eq_true] at h
    by_cases hn : n = name
    · simp only [find, hn, if_true] at hf
      injection hf with hf
      subst hf
      subst hn
      have h1 := h.1
      simp only [hc, Bool.not_true, Bool.false_or, Bool.and_eq_true, decide_eq_true_eq] at h1
      exact h1
    · simp only [find, hn, if_false] at hf
      exact ih h.2 hf

theorem dtype_dir (n : Node) : (n.dtype == DType.DT_DIR) = n.isDir := by
  cases n <;> rfl

/-! ## `do_readlinkat`, the scan and the loops in a quiet world -/

theorem cstr_of_wf (t : List Char) (h : (Node.lnk t).wf = true) :
    t.take (PATH_MAX + 1) = t ∧ t.length ≤ PATH_MAX ∧ cstr t = t := by
  simp only [Node.wf, Bool.and_eq_true, decide_eq_true_eq, Bool.not_eq_true'] at h
  obtain ⟨h1, h2⟩ := h
  refine ⟨List.take_of_length_le (by omega), h1, ?_⟩
  unfold cstr
  rw [List.takeWhile_eq_self_iff]
  intro c hc
  simp only [bne_iff_ne, ne_eq]
  intro hc0
  subst hc0
  have : t.contains (Char.ofNat 0) = true := by simpa using hc
  rw [this] at h2
  cases h2

theorem do_readlinkat_quiet {S : Prop} (dir : Node) (name : Name) (t : List Char)
    (hf : find name dir.ents = some (.lnk t)) (hwf : (Node.lnk t).wf = true) :
    Yields S (do_readlinkat dir name) (fun r => r = t) := by
  obtain ⟨h1, h2, h3⟩ := cstr_of_wf t hwf
  unfold do_readlinkat
  refine yields_bind (CHKSYS_quiet _ _ _ t (by simp [readlinkat, hf, h1])) ?_
  intro buf hb
  subst hb
  rw [if_neg (by omega)]
  exact yields_pure h3

theorem scanTop_quiet {S : Prop} (base : Node) : ∀ ds : List Dirent,
    Yields S (scanTop base ds) (fun ex => ex = explodes base ds) := by
  intro ds
  induction ds with
  | nil =>
    unfold scanTop
    refine yields_bind (syscall_quiet _ _ _ (by rfl)) ?_
    intro r hr
    subst hr
    exact yields_pure rfl
  | cons d rest ih =>
    unfold scanTop
    refine yields_bind (syscall_quiet _ _ _ (by rfl)) ?_
    intro r hr
    subst hr
    simp only
    by_cases hdot : isDot d.d_name = true
    · rw [if_pos hdot]
      refine yields_mono ih ?_
      intro ex hex
      simp [explodes, hdot] at hex ⊢
      exact hex
    · rw [if_neg hdot]
      refine yields_bind (syscall_quiet _ _ _ (by rfl)) ?_
      intro r hr
      subst hr
      simp only [Bool.not_eq_true] at hdot
      cases hfd : find d.d_name base.ents with
      | none =>
        simp only [fstatat, hfd]
        refine yields_pure ?_
        simp [explodes, hdot, mismatch, hfd]
      | some b =>
        simp only [fstatat, hfd]
        by_cases hm : ((d.d_type == DType.DT_DIR) != b.isDir) = true
        · rw [if_pos hm]
          refine yields_pure ?_
          simp [explodes, hdot, mismatch, hfd, hm]
        · rw [if_neg hm]
          refine yields_mono ih ?_
          intro ex hex
          simp only [Bool.not_eq_true] at hm
          simp [explodes, hdot, mismatch, hfd, hm] at hex ⊢
          exact hex

theorem forEnt_ents {σ : Type} {S : Prop} (body : Dirent → σ → Sys σ) (J : Ents → σ → Prop)
    (hbody : ∀ e rest s, isDot e.1 = false → J (e :: rest) s →
      Yields S (body (toDirent e) s) (J rest)) :
    ∀ (es : Ents) (s : σ), (∀ e ∈ es, isDot e.1 = false) → J es s →
      Yields S (forEnt body (es.map toDirent) s) (J []) := by
  intro es
  induction es with
  | nil =>
    intro s _ hj
    simp only [List.map_nil]
    unfold forEnt
    refine yields_bind (syscall_quiet _ _ _ (by rfl)) ?_
    intro r hr
    subst hr
    exact yields_pure hj
  | cons e rest ih =>
    intro s hnd hj
    have hd : isDot e.1 = false := hnd e (List.mem_cons_self _ _)
    simp only [List.map_cons]
    unfold forEnt
    refine yields_bind (syscall_quiet _ _ _ (by rfl)) ?_
    intro r hr
    subst hr
    simp only [toDirent, hd]
    refine yields_bind (hbody e rest s hd hj) ?_
    intro s1 hs1
    exact ih s1 (fun x hx => hnd x (List.mem_cons_of_mem _ hx)) hs1

theorem forEnt_dirStream {σ : Type} {S : Prop} (body : Dirent → σ → Sys σ) (d : Node) (s : σ)
    (Q : σ → Prop) (h : Yields S (forEnt body (d.ents.map toDirent) s) Q) :
    Yields S (forEnt body (dirStream d) s) Q := by
  unfold dirStream
  unfold forEnt
  refine yields_bind (syscall_quiet _ _ _ (by rfl)) ?_
  intro r hr
  subst hr
  have h1 : isDot "." = true := by decide
  simp only [h1, if_true]
  unfold forEnt
  refine yields_bind (syscall_quiet _ _ _ (by rfl)) ?_
  intro r hr
  subst hr
  have h2 : isDot ".." = true := by decide
  simp only [h2, if_true]
  exact h

theorem explodes_dirStream (base top : Node) :
    explodes base (dirStream top) = explodes base (top.ents.map toDirent) := by
  have h1 : isDot "." = true := by decide
  have h2 : isDot ".." = true := by decide
  simp [explodes, dirStream, h1, h2]

/-! ## The weave in a quiet world -/

theorem Res_isSome (W : Node → Node → Node → Prop) (t : Node) (b o : Option Node)
    (h : Res W (some t) b o) : o.isSome = true := by
  cases b with
  | none => simp only [Res] at h; rw [h]; rfl
  | some bn =>
    simp only [Res] at h
    split at h
    · obtain ⟨ov, h1, _⟩ := h; rw [h1]; rfl
    · rw [h]; rfl

theorem Res_nondir (W : Node → Node → Node → Prop) (t : Node) (b : Option Node)
    (h : t.isDir = false) : Res W (some t) b (some t) := by
  cases b with
  | none => simp [Res]
  | some bn => simp [Res, h]

theorem Res_nobase (W : Node → Node → Node → Prop) (t : Node) (b : Option Node)
    (h : ∀ bn, b = some bn → bn.rok = false) : Res W (some t) b (some t) := by
  cases b with
  | none => simp [Res]
  | some bn => simp [Res, h bn rfl]

theorem Res_both (W : Node → Node → Node → Prop) (t bn ov : Node)
    (ht : t.isDir = true) (hb : bn.rok = true) (h : W bn t ov) :
    Res W (some t) (some bn) (some ov) := by
  simp only [Res, ht, hb, and_self, if_true]
  exact ⟨ov, rfl, h⟩

theorem Placed_step (W : Node → Node → Node → Prop) (pre : Ents) (other : Name → Option Node)
    (bes out out1 : Ents) (n : Name) (t v : Node)
    (hp : Placed W pre other bes out)
    (hn : find n out1 = some v)
    (ho : ∀ name, name ≠ n → find name out1 = find name out)
    (hr : Res W (some t) (find n bes) (some v)) (hpre : find n pre = none) :
    Placed W (pre ++ [(n, t)]) other bes out1 := by
  intro name
  by_cases h : name = n
  · subst h
    rw [find_append_none _ _ _ hpre]
    simp only [find, if_true, hn]
    exact hr
  · have h1 : find name (pre ++ [(n, t)]) = find name pre := by
      rw [find_append]
      cases find name pre with
      | some x => rfl
      | none => simp [find, Ne.symm h]
    rw [h1, ho name h]
    exact hp name

theorem find_snoc_same (out : Ents) (n : Name) (v : Node) (h : find n out = none) :
    find n (out ++ [(n, v)]) = some v := by
  rw [find_append_none _ _ _ h]; simp [find]

theorem find_snoc_other (out : Ents) (n name : Name) (v : Node) (h : name ≠ n) :
    find name (out ++ [(n, v)]) = find name out := by
  rw [find_append]
  cases find name out with
  | some x => rfl
  | none => simp [find, Ne.symm h]

theorem createAt_ok (out : Ents) (n : Name) (v : Node) (h : find n out = none) :
    createAt out n v = .ok (out ++ [(n, v)]) := by
  simp [createAt, h]

theorem smooth_child (bm : Nat) (ba : Access) (bes : Ents) (tm : Nat) (ta : Access) (tes : Ents)
    (tail : Nat) (n : Name) (b t : Node) (hb : find n bes = some b) (ht : find n tes = some t)
    (htd : t.isDir = true) (h : Smooth (.dir bm ba bes) (.dir tm ta tes) tail) :
    tail + strlen n + 2 ≤ PATH_MAX ∧ Smooth b t (tail + strlen n + 1) := by
  obtain ⟨h1, h2, h3⟩ := h
  have hf := fitsEnts_find tes tail (by simpa [Node.fits] using h3) n t ht htd
  exact ⟨hf.1, readableEnts_find _ (readable_dir _ _ _ h1).2 n b hb,
    readableEnts_find _ (readable_dir _ _ _ h2).2 n t ht, hf.2⟩

theorem pass1Body_quiet (fuel : Nat)
    (recur : Node → Node → Option Node → Name → State → Nat → Sys Node)
    (hrec : RecOK fuel recur) (base top : Node) (tail : Nat) (hbd : base.isDir = true)
    (hb : base.wf = true) (ht : top.wf = true) (hd : top.depth < fuel + 1)
    (pre rest : Ents) (n : Name) (t : Node) (htes : top.ents = pre ++ (n, t) :: rest)
    (out : Ents) (hp : Placed (WovenN fuel) pre (fun _ => none) base.ents out) :
    Yields (Smooth base top tail) (pass1Body recur base top tail (toDirent (n, t)) out)
      (fun out1 => Placed (WovenN fuel) (pre ++ [(n, t)]) (fun _ => none) base.ents out1) := by
  cases top with
  | lnk _ => simp [Node.ents] at htes
  | oth _ => simp [Node.ents] at htes
  | dir tm tw tes =>
  obtain ⟨bm0, bw0, bes0, rfl⟩ := (isDir_iff base).mp hbd
  simp only [Node.ents] at htes hp ⊢
  subst htes
  obtain ⟨hnames, hwfe⟩ := wf_dir _ _ _ ht
  obtain ⟨hpre, -, hfind⟩ := namesOk_split pre rest (n, t) hnames
  simp only at hpre hfind
  have hout : find n out = none := by
    have := hp n
    rw [hpre] at this
    exact this
  have htwf : t.wf = true := wfEnts_find _ hwfe n t hfind
  have hstep : ∀ out1 v, find n out1 = some v → (∀ name, name ≠ n → find name out1 = find name out) →
      Res (WovenN fuel) (some t) (find n bes0) (some v) →
      Placed (WovenN fuel) (pre ++ [(n, t)]) (fun _ => none) bes0 out1 :=
    fun out1 v h1 h2 h3 => Placed_step _ pre _ _ out out1 n t v hp h1 h2 h3 hpre
  cases t with
  | dir m w es =>
    simp only [pass1Body, toDirent, Node.dtype]
    refine yields_bind (CHKSYS_quiet _ _ _ _ (createAt_ok out n emptyDir hout)) ?_
    intro out1 ho1
    subst ho1
    refine yields_bind (syscall_quiet _ _ _ (by rfl)) ?_
    intro r hr
    subst hr
    have hf1 : find n (out ++ [(n, emptyDir)]) = some emptyDir := find_snoc_same out n _ hout
    have hbind : ∀ (e : Nat), (∀ bn, find n bes0 = some bn → bn.rok = false) →
        Yields (Smooth (Node.dir bm0 bw0 bes0) (Node.dir tm tw (pre ++ (n, Node.dir m w es) :: rest))
          tail)
          (bindmntat n n (find n (pre ++ (n, Node.dir m w es) :: rest))
            (find n (out ++ [(n, emptyDir)])) >>= fun v =>
              Pure.pure (setEnt n v (out ++ [(n, emptyDir)])))
          (fun out1 => Placed (WovenN fuel) (pre ++ [(n, Node.dir m w es)]) (fun _ => none)
            bes0 out1) := by
      intro _ hno
      rw [hfind, hf1]
      refine yields_bind (bindmntat_quiet _ _ _ _ rfl) ?_
      intro v hv
      subst hv
      refine yields_pure (hstep _ _ (find_setEnt_same _ _ _ (by rw [hf1]; rfl)) ?_ ?_)
      · intro name hne
        rw [find_setEnt_other _ _ _ _ hne, find_snoc_other _ _ _ _ hne]
      · exact Res_nobase _ _ _ hno
    cases hbn : find n bes0 with
    | none =>
      simp only [openDir, hbn, Node.ents]
      exact hbind 0 (by intro bn h; rw [hbn] at h; cases h)
    | some bn =>
      cases bn with
      | dir bm ba bes =>
        obtain ⟨br, bwk⟩ := ba
        cases br with
        | false =>
          simp only [openDir, hbn, Node.ents, Bool.false_eq_true, if_false]
          exact hbind 0 (by intro bn h; rw [hbn] at h; injection h with h; subst h; rfl)
        | true =>
          simp only [openDir, hbn, Node.ents, if_true]
          refine yields_bind (CHKSYS_try _ _ _ (by rfl) ?_) ?_
          · intro hS
            have hr := readableEnts_find _ (readable_dir _ _ _ hS.2.1).2 n _ hfind
            have := (readable_dir _ _ _ hr).1
            simp [hfind, this]
          intro t1 ht1
          have hwr : w.rok = true ∧ t1 = Node.dir m w es := by
            rw [hfind] at ht1
            simp only at ht1
            split at ht1
            · rename_i h
              injection ht1 with ht1
              exact ⟨h, ht1.symm⟩
            · cases ht1
          obtain ⟨-, rfl⟩ := hwr
          have hbwf : (Node.dir bm ⟨true, bwk⟩ bes).wf = true :=
            wfEnts_find _ (wf_dir _ _ _ hb).2 n _ hbn
          have hdep : (Node.dir m w es).depth < fuel := by
            have := depth_child tm tw _ n _ hfind
            omega
          refine yields_bind (sprintfOutpath_quiet tail n
            (fun hS => (smooth_child _ _ _ _ _ _ tail n _ _ hbn hfind rfl hS).1)) ?_
          intro tail1 htail1
          subst htail1
          rw [hf1]
          refine yields_bind (yields_weaken
            (hrec _ _ _ n .kSkeleton _ rfl rfl hbwf htwf hdep rfl)
            (fun hS => (smooth_child _ _ _ _ _ _ tail n _ _ hbn hfind rfl hS).2)) ?_
          intro v hv
          refine yields_pure (hstep _ _ (find_setEnt_same _ _ _ (by rw [hf1]; rfl)) ?_ ?_)
          · intro name hne
            rw [find_setEnt_other _ _ _ _ hne, find_snoc_other _ _ _ _ hne]
          · rw [hbn]; exact Res_both _ _ _ _ rfl rfl hv.1
      | lnk x =>
        simp only [openDir, hbn, Node.ents]
        exact hbind 0 (by intro bn h; rw [hbn] at h; injection h with h; subst h; rfl)
      | oth x =>
        simp only [openDir, hbn, Node.ents]
        exact hbind 0 (by intro bn h; rw [hbn] at h; injection h with h; subst h; rfl)
  | lnk tg =>
    simp only [pass1Body, toDirent, Node.dtype]
    refine yields_bind (do_readlinkat_quiet _ n tg hfind htwf) ?_
    intro buf hbuf
    subst hbuf
    refine yields_mono (CHKSYS_quiet _ _ _ _ (createAt_ok out n _ hout)) ?_
    intro out1 ho1
    subst ho1
    exact hstep _ _ (find_snoc_same out n _ hout) (fun name hne => find_snoc_other _ _ _ _ hne)
      (Res_nondir _ _ _ rfl)
  | oth s =>
    simp only [pass1Body, toDirent, Node.dtype]
    refine yields_bind (CHKSYS_quiet _ _ _ _ (createAt_ok out n emptyFile hout)) ?_
    intro out1 ho1
    subst ho1
    have hf1 : find n (out ++ [(n, emptyFile)]) = some emptyFile := find_snoc_same out n _ hout
    simp only [Node.ents, hfind, hf1]
    refine yields_bind (bindmntat_quiet _ _ _ _ rfl) ?_
    intro v hv
    subst hv
    refine yields_pure (hstep _ _ (find_setEnt_same _ _ _ (by rw [hf1]; rfl)) ?_ ?_)
    · intro name hne
      rw [find_setEnt_other _ _ _ _ hne, find_snoc_other _ _ _ _ hne]
    · exact Res_nondir _ _ _ rfl

theorem Placed_skip (W : Node → Node → Node → Prop) (tes pre bes out : Ents) (n : Name)
    (v : Node) (hp : Placed W tes (fun name => find name pre) bes out)
    (hpre : find n pre = none) (hout : (find n out).isSome = true) :
    Placed W tes (fun name => find name (pre ++ [(n, v)])) bes out := by
  intro name
  have h := hp name
  cases htes : find name tes with
  | some t => rw [htes] at h; exact h
  | none =>
    rw [htes] at h
    simp only at h ⊢
    by_cases hn : name = n
    · subst hn
      rw [h, hpre] at hout
      cases hout
    · rw [find_snoc_other _ _ _ _ hn]; exact h

theorem Placed_add (W : Node → Node → Node → Prop) (tes pre bes out out1 : Ents) (n : Name)
    (v : Node) (hp : Placed W tes (fun name => find name pre) bes out)
    (hpre : find n pre = none) (hout : find n out = none)
    (hn : find n out1 = some v) (ho : ∀ name, name ≠ n → find name out1 = find name out) :
    Placed W tes (fun name => find name (pre ++ [(n, v)])) bes out1 := by
  intro name
  have h := hp name
  by_cases hne : name = n
  · subst hne
    cases htes : find name tes with
    | some t =>
      rw [htes] at h
      have := Res_isSome _ _ _ _ h
      rw [hout] at this
      cases this
    | none =>
      simp only
      rw [hn, find_snoc_same _ _ _ hpre]
  · rw [ho name hne]
    cases htes : find name tes with
    | some t => rw [htes] at h; exact h
    | none =>
      rw [htes] at h
      simp only at h ⊢
      rw [find_snoc_other _ _ _ _ hne]; exact h

theorem createAt_exists (out : Ents) (n : Name) (v x : Node) (h : find n out = some x) :
    createAt out n v = .error EEXIST := by
  simp [createAt, h]

theorem pass2Body_quiet {S : Prop} (W : Node → Node → Node → Prop) (base : Node)
    (hb : base.wf = true)
    (tes pre rest : Ents) (n : Name) (v : Node) (hbes : base.ents = pre ++ (n, v) :: rest)
    (out : Ents) (hp : Placed W tes (fun name => find name pre) base.ents out) :
    Yields S (pass2Body base (toDirent (n, v)) out)
      (fun out1 => Placed W tes (fun name => find name (pre ++ [(n, v)])) base.ents out1) := by
  cases base with
  | lnk _ => simp [Node.ents] at hbes
  | oth _ => simp [Node.ents] at hbes
  | dir bm bw bes =>
  simp only [Node.ents] at hbes hp ⊢
  subst hbes
  obtain ⟨hnames, hwfe⟩ := wf_dir _ _ _ hb
  obtain ⟨hpre, -, hfind⟩ := namesOk_split pre rest (n, v) hnames
  simp only at hpre hfind
  have hvwf : v.wf = true := wfEnts_find _ hwfe n v hfind
  have hset : ∀ (x : Node) (name : Name), name ≠ n →
      find name (setEnt n v (out ++ [(n, x)])) = find name out := by
    intro x name hne
    rw [find_setEnt_other _ _ _ _ hne, find_snoc_other _ _ _ _ hne]
  cases hout : find n out with
  | some x =>
    have hskip := Placed_skip W tes pre _ out n v hp hpre (by rw [hout]; rfl)
    cases v with
    | dir m w es =>
      simp only [pass2Body, toDirent, Node.dtype]
      refine yields_bind (syscall_quiet _ _ _ (by rfl)) ?_
      intro r hr
      subst hr
      simp only [createAt_exists out n _ x hout, if_true]
      exact yields_pure hskip
    | lnk tg =>
      simp only [pass2Body, toDirent, Node.dtype]
      refine yields_bind (do_readlinkat_quiet _ n tg hfind hvwf) ?_
      intro buf hbuf
      subst hbuf
      refine yields_bind (syscall_quiet _ _ _ (by rfl)) ?_
      intro r hr
      subst hr
      simp only [createAt_exists out n _ x hout, if_true]
      exact yields_pure hskip
    | oth s =>
      simp only [pass2Body, toDirent, Node.dtype]
      refine yields_bind (syscall_quiet _ _ _ (by rfl)) ?_
      intro r hr
      subst hr
      simp only [createAt_exists out n _ x hout, if_true]
      exact yields_pure hskip
  | none =>
    cases v with
    | dir m w es =>
      simp only [pass2Body, toDirent, Node.dtype]
      refine yields_bind (syscall_quiet _ _ _ (by rfl)) ?_
      intro r hr
      subst hr
      have hf1 : find n (out ++ [(n, emptyDir)]) = some emptyDir := find_snoc_same out n _ hout
      simp only [createAt_ok out n _ hout, Node.ents, hfind, hf1]
      refine yields_bind (bindmntat_quiet _ _ _ _ rfl) ?_
      intro v1 hv1
      subst hv1
      exact yields_pure (Placed_add W tes pre _ out _ n _ hp hpre hout
        (find_setEnt_same _ _ _ (by rw [hf1]; rfl)) (hset _))
    | lnk tg =>
      simp only [pass2Body, toDirent, Node.dtype]
      refine yields_bind (do_readlinkat_quiet _ n tg hfind hvwf) ?_
      intro buf hbuf
      subst hbuf
      refine yields_bind (syscall_quiet _ _ _ (by rfl)) ?_
      intro r hr
      subst hr
      simp only [createAt_ok out n _ hout]
      exact yields_pure (Placed_add W tes pre _ out _ n _ hp hpre hout
        (find_snoc_same out n _ hout) (fun name hne => find_snoc_other _ _ _ _ hne))
    | oth s =>
      simp only [pass2Body, toDirent, Node.dtype]
      refine yields_bind (syscall_quiet _ _ _ (by rfl)) ?_
      intro r hr
      subst hr
      have hf1 : find n (out ++ [(n, emptyFile)]) = some emptyFile := find_snoc_same out n _ hout
      simp only [createAt_ok out n _ hout, Node.ents, hfind, hf1]
      refine yields_bind (bindmntat_quiet _ _ _ _ rfl) ?_
      intro v1 hv1
      subst hv1
      exact yields_pure (Placed_add W tes pre _ out _ n _ hp hpre hout
        (find_setEnt_same _ _ _ (by rw [hf1]; rfl)) (hset _))

theorem openDir_ok (es : Ents) (n : Name) (m : Nat) (a : Access) (ces : Ents) (m0 : Nat)
    (a0 : Access) (r : Node) (hf : find n es = some (.dir m a ces))
    (h : openDir (.dir m0 a0 es) n = .ok r) : a.rok = true ∧ r = .dir m a ces := by
  simp only [openDir, Node.ents, hf] at h
  split at h
  · rename_i hr
    injection h with h
    exact ⟨hr, h.symm⟩
  · cases h

theorem openDir_lacks (es : Ents) (n : Name) (m : Nat) (a : Access) (ces : Ents)
    (m0 : Nat) (a0 : Access) (hf : find n es = some (.dir m a ces)) :
    (Event.mk .openat_base_stack n (errnoOf (openDir (.dir m0 a0 es) n))).lacks = false := by
  simp only [openDir, Node.ents, hf]
  split
  · rfl
  · simp [Event.lacks, errnoOf, EACCES, ENOENT, ENOTDIR]

theorem openDir_smooth (es : Ents) (n : Name) (m : Nat) (a : Access) (ces : Ents) (m0 : Nat)
    (a0 : Access) (hf : find n es = some (.dir m a ces))
    (hr : (Node.dir m0 a0 es).readable = true) : ∃ r, openDir (.dir m0 a0 es) n = .ok r := by
  have h1 := readableEnts_find _ (readable_dir _ _ _ hr).2 n _ hf
  have h2 := (readable_dir _ _ _ h1).1
  exact ⟨Node.dir m a ces, by simp [openDir, Node.ents, hf, h2]⟩

theorem stackBody_quiet (fuel : Nat)
    (recur : Node → Node → Option Node → Name → State → Nat → Sys Node)
    (hrec : RecOK fuel recur) (base top : Node) (tail : Nat) (hbd : base.isDir = true)
    (hb : base.wf = true) (ht : top.wf = true) (hd : top.depth < fuel + 1)
    (pre rest : Ents) (n : Name) (t : Node) (htes : top.ents = pre ++ (n, t) :: rest)
    (hmatch : mismatch base (toDirent (n, t)) = false)
    (out : Ents)
    (hp : Placed (WovenN fuel) pre (fun name => find name base.ents) base.ents out) :
    Yields (Smooth base top tail) (stackBody recur base top tail (toDirent (n, t)) out)
      (fun out1 => Placed (WovenN fuel) (pre ++ [(n, t)]) (fun name => find name base.ents)
        base.ents out1) := by
  cases top with
  | lnk _ => simp [Node.ents] at htes
  | oth _ => simp [Node.ents] at htes
  | dir tm tw tes =>
  obtain ⟨bm0, bw0, bes0, rfl⟩ := (isDir_iff base).mp hbd
  simp only [Node.ents] at htes hp ⊢
  subst htes
  obtain ⟨hnames, hwfe⟩ := wf_dir _ _ _ ht
  obtain ⟨hpre, -, hfind⟩ := namesOk_split pre rest (n, t) hnames
  simp only at hpre hfind
  have htwf : t.wf = true := wfEnts_find _ hwfe n t hfind
  obtain ⟨b, hbn, hkind⟩ : ∃ b, find n bes0 = some b ∧ t.isDir = b.isDir := by
    simp only [mismatch, toDirent, Node.ents] at hmatch
    cases hbn : find n bes0 with
    | none => rw [hbn] at hmatch; cases hmatch
    | some b =>
      rw [hbn] at hmatch
      refine ⟨b, rfl, ?_⟩
      rw [dtype_dir] at hmatch
      simpa using hmatch
  have hout : find n out = some b := by
    have := hp n
    rw [hpre] at this
    simp only at this
    rw [this, hbn]
  have hstep : ∀ v, Res (WovenN fuel) (some t) (find n bes0) (some v) →
      Placed (WovenN fuel) (pre ++ [(n, t)]) (fun name => find name bes0) bes0 (setEnt n v out) :=
    fun v h3 => Placed_step _ pre _ _ out _ n t v hp
      (find_setEnt_same _ _ _ (by rw [hout]; rfl))
      (fun name hne => find_setEnt_other _ _ _ _ hne) h3 hpre
  cases t with
  | dir m w es =>
    obtain ⟨bm, bw, bes, rfl⟩ := (isDir_iff b).mp hkind.symm
    simp only [stackBody, toDirent, Node.dtype]
    refine yields_bind (CHKSYS_try _ _ _ (openDir_lacks _ _ _ _ _ _ _ hbn)
      (fun hS => openDir_smooth _ _ _ _ _ _ _ hbn hS.1)) ?_
    intro b1 hb1
    obtain ⟨hbr, rfl⟩ := openDir_ok _ _ _ _ _ _ _ _ hbn hb1
    refine yields_bind (CHKSYS_try _ _ _ (by rfl)
      (fun hS => openDir_smooth _ _ _ _ _ _ _ hfind hS.2.1)) ?_
    intro t1 ht1
    obtain ⟨-, rfl⟩ := openDir_ok _ _ _ _ _ _ _ _ hfind ht1
    have hbwf : (Node.dir bm bw bes).wf = true := wfEnts_find _ (wf_dir _ _ _ hb).2 n _ hbn
    have hdep : (Node.dir m w es).depth < fuel := by
      have := depth_child tm tw _ n _ hfind
      omega
    refine yields_bind (sprintfOutpath_quiet tail n
      (fun hS => (smooth_child _ _ _ _ _ _ tail n _ _ hbn hfind rfl hS).1)) ?_
    intro tail1 htail1
    subst htail1
    rw [hout]
    refine yields_bind (yields_weaken (hrec _ _ _ n .kBase _ rfl rfl hbwf htwf hdep rfl)
      (fun hS => (smooth_child _ _ _ _ _ _ tail n _ _ hbn hfind rfl hS).2)) ?_
    intro v hv
    refine yields_pure (hstep v ?_)
    rw [hbn]; exact Res_both _ _ _ _ rfl hbr hv.1
  | lnk tg =>
    simp only [stackBody, toDirent, Node.dtype, Node.ents, hfind, hout]
    refine yields_bind (bindmntat_quiet _ _ _ _ hkind) ?_
    intro v hv
    subst hv
    exact yields_pure (hstep _ (Res_nondir _ _ _ rfl))
  | oth s =>
    simp only [stackBody, toDirent, Node.dtype, Node.ents, hfind, hout]
    refine yields_bind (bindmntat_quiet _ _ _ _ hkind) ?_
    intro v hv
    subst hv
    exact yields_pure (hstep _ (Res_nondir _ _ _ rfl))

theorem not_mismatch_of_not_explodes (base : Node) (es : Ents)
    (h : explodes base (es.map toDirent) = false) (hnd : ∀ e ∈ es, isDot e.1 = false) :
    ∀ e ∈ es, mismatch base (toDirent e) = false := by
  intro e he
  simp only [explodes, List.any_eq_false, List.mem_map, forall_exists_index, and_imp] at h
  have := h (toDirent e) e he rfl
  have hd : isDot (toDirent e).d_name = false := hnd e he
  simpa [hd] using this

theorem stackLoop_quiet (fuel : Nat) (recur : Node → Node → Option Node → Name → State → Nat → Sys Node)
    (hrec : RecOK fuel recur) (base top : Node) (tail : Nat) (hbd : base.isDir = true)
    (hb : base.wf = true) (ht : top.wf = true) (hd : top.depth < fuel + 1)
    (hex : explodes base (dirStream top) = false) :
    Yields (Smooth base top tail) (forEnt (stackBody recur base top tail) (dirStream top) base.ents)
      (fun out => ∀ name,
        Res (WovenN fuel) (find name top.ents) (find name base.ents) (find name out)) := by
  apply forEnt_dirStream
  have hnd : ∀ e ∈ top.ents, isDot e.1 = false := by
    cases top with
    | dir tm tw tes => exact namesOk_nodot _ (wf_dir _ _ _ ht).1
    | lnk _ => intro e he; cases he
    | oth _ => intro e he; cases he
  rw [explodes_dirStream] at hex
  have hmm := not_mismatch_of_not_explodes base _ hex hnd
  refine yields_mono (forEnt_ents (stackBody recur base top tail)
    (fun rem out => ∃ pre, top.ents = pre ++ rem ∧
      Placed (WovenN fuel) pre (fun name => find name base.ents) base.ents out)
    ?_ top.ents base.ents hnd ⟨[], rfl, fun name => rfl⟩) ?_
  · intro e rest out _ hj
    obtain ⟨pre, hpre, hp⟩ := hj
    obtain ⟨n, t⟩ := e
    refine yields_mono (stackBody_quiet fuel recur hrec base top tail hbd hb ht hd pre rest n t hpre
      (hmm (n, t) (by rw [hpre]; simp)) out hp) ?_
    intro out1 h1
    exact ⟨pre ++ [(n, t)], by rw [hpre]; simp, h1⟩
  · intro out hj
    obtain ⟨pre, hpre, hp⟩ := hj
    rw [List.append_nil] at hpre
    subst hpre
    intro name
    have := hp name
    cases hf : find name top.ents with
    | some t => rw [hf] at this; exact this
    | none => rw [hf] at this; simp only [Res]; exact this

theorem nodot_of_wf (d : Node) (h : d.wf = true) : ∀ e ∈ d.ents, isDot e.1 = false := by
  cases d with
  | dir tm tw tes => exact namesOk_nodot _ (wf_dir _ _ _ h).1
  | lnk _ => intro e he; cases he
  | oth _ => intro e he; cases he

theorem pass1Loop_quiet (fuel : Nat)
    (recur : Node → Node → Option Node → Name → State → Nat → Sys Node)
    (hrec : RecOK fuel recur) (base top : Node) (tail : Nat) (hbd : base.isDir = true)
    (hb : base.wf = true) (ht : top.wf = true) (hd : top.depth < fuel + 1) :
    Yields (Smooth base top tail) (forEnt (pass1Body recur base top tail) (dirStream top) [])
      (fun out => Placed (WovenN fuel) top.ents (fun _ => none) base.ents out) := by
  apply forEnt_dirStream
  refine yields_mono (forEnt_ents (pass1Body recur base top tail)
    (fun rem out => ∃ pre, top.ents = pre ++ rem ∧
      Placed (WovenN fuel) pre (fun _ => none) base.ents out)
    ?_ top.ents [] (nodot_of_wf top ht) ⟨[], rfl, fun name => rfl⟩) ?_
  · intro e rest out _ hj
    obtain ⟨pre, hpre, hp⟩ := hj
    obtain ⟨n, t⟩ := e
    refine yields_mono (pass1Body_quiet fuel recur hrec base top tail hbd hb ht hd pre rest n t hpre
      out hp) ?_
    intro out1 h1
    exact ⟨pre ++ [(n, t)], by rw [hpre]; simp, h1⟩
  · intro out hj
    obtain ⟨pre, hpre, hp⟩ := hj
    rw [List.append_nil] at hpre
    rw [hpre]; exact hp

theorem pass2Loop_quiet {S : Prop} (W : Node → Node → Node → Prop) (base top : Node)
    (hb : base.wf = true) (es1 : Ents)
    (hp1 : Placed W top.ents (fun _ => none) base.ents es1) :
    Yields S (forEnt (pass2Body base) (dirStream base) es1)
      (fun out => ∀ name, Res W (find name top.ents) (find name base.ents) (find name out)) := by
  apply forEnt_dirStream
  refine yields_mono (forEnt_ents (pass2Body base)
    (fun rem out => ∃ pre, base.ents = pre ++ rem ∧
      Placed W top.ents (fun name => find name pre) base.ents out)
    ?_ base.ents es1 (nodot_of_wf base hb) ⟨[], rfl, hp1⟩) ?_
  · intro e rest out _ hj
    obtain ⟨pre, hpre, hp⟩ := hj
    obtain ⟨n, v⟩ := e
    refine yields_mono (pass2Body_quiet W base hb top.ents pre rest n v hpre out hp) ?_
    intro out1 h1
    exact ⟨pre ++ [(n, v)], by rw [hpre]; simp, h1⟩
  · intro out hj
    obtain ⟨pre, hpre, hp⟩ := hj
    rw [List.append_nil] at hpre
    subst hpre
    intro name
    have := hp name
    cases hf : find name top.ents with
    | some t => rw [hf] at this; exact this
    | none => rw [hf] at this; simp only [Res]; exact this

theorem explodeFrame_quiet (fuel : Nat)
    (recur : Node → Node → Option Node → Name → State → Nat → Sys Node)
    (hrec : RecOK fuel recur) (base top : Node) (tail : Nat) (hbd : base.isDir = true)
    (hb : base.wf = true) (ht : top.wf = true) (hd : top.depth < fuel + 1)
    (slot : Option Node) (outname : Name) (st : State) (hs : SlotOK st base slot) :
    Yields (Smooth base top tail) (explodeFrame recur base top slot outname st tail)
      (fun o => WovenN (fuel + 1) base top o ∧
        o.mode = if base.wok then 0o1777 else 0o555) := by
  unfold explodeFrame
  refine yields_bind (P := fun s1 => s1 = some emptyDir) ?_ ?_
  · cases st with
    | kSkeleton =>
      simp only [ne_eq, not_true_eq_false, if_false]
      exact yields_pure hs
    | kRoot =>
      obtain ⟨m, w, es, rfl⟩ := hs
      simp only [ne_eq, reduceCtorEq, not_false_eq_true, if_true]
      exact CHKSYS_quiet _ _ _ (some emptyDir) rfl
    | kBase =>
      obtain ⟨m, w, es, rfl⟩ := (isDir_iff base).mp hbd
      simp only [SlotOK] at hs
      subst hs
      simp only [ne_eq, reduceCtorEq, not_false_eq_true, if_true]
      exact CHKSYS_quiet _ _ _ (some emptyDir) rfl
  · intro s1 hs1
    subst hs1
    refine yields_bind (CHKSYS_quiet _ _ _ emptyDir rfl) ?_
    intro out hout
    subst hout
    have hempty : emptyDir.ents = [] := rfl
    rw [hempty]
    refine yields_bind (pass1Loop_quiet fuel recur hrec base top tail hbd hb ht hd) ?_
    intro es1 hes1
    refine yields_bind (pass2Loop_quiet _ base top hb es1 hes1) ?_
    intro es2 hes2
    refine yields_bind (syscall_quiet _ _ _ (by rfl)) ?_
    intro r hr
    subst hr
    refine yields_bind (CHKSYS_quiet _ _ _ () rfl) ?_
    intro _ _
    refine yields_bind (CHKSYS_quiet _ _ _ () rfl) ?_
    intro _ _
    refine yields_pure ⟨⟨rfl, hes2⟩, ?_⟩
    cases hw : base.wok <;> simp [faccessatW, hw, chmodDir, Node.mode]

theorem stackFrame_quiet (fuel : Nat)
    (recur : Node → Node → Option Node → Name → State → Nat → Sys Node)
    (hrec : RecOK fuel recur) (base top : Node) (tail : Nat) (hbd : base.isDir = true)
    (hb : base.wf = true) (ht : top.wf = true) (hd : top.depth < fuel + 1)
    (hex : explodes base (dirStream top) = false)
    (slot : Option Node) (outname : Name) (st : State) (hs : SlotOK st base slot) :
    Yields (Smooth base top tail) (stackFrame recur base top slot outname st tail)
      (fun o => WovenN (fuel + 1) base top o ∧ o.mode = base.mode) := by
  unfold stackFrame
  refine yields_bind (P := fun s1 => s1 = some base) ?_ ?_
  · obtain ⟨bm, bw, bes, rfl⟩ := (isDir_iff base).mp hbd
    cases st with
    | kBase =>
      simp only [ne_eq, not_true_eq_false, if_false]
      exact yields_pure hs
    | kRoot =>
      obtain ⟨m, w, es, rfl⟩ := hs
      simp only [ne_eq, reduceCtorEq, not_false_eq_true, if_true]
      refine yields_map (bindmntat_quiet _ _ _ _ rfl) ?_
      intro v hv
      rw [hv]
    | kSkeleton =>
      simp only [SlotOK] at hs
      subst hs
      simp only [ne_eq, reduceCtorEq, not_false_eq_true, if_true]
      refine yields_map (bindmntat_quiet _ _ _ _ rfl) ?_
      intro v hv
      rw [hv]
  · intro s1 hs1
    subst hs1
    obtain ⟨bm, bw, bes, rfl⟩ := (isDir_iff base).mp hbd
    refine yields_bind (CHKSYS_try _ _ _ (by rfl) (fun hS => ?_)) ?_
    · have := (readable_dir _ _ _ hS.1).1
      exact ⟨Node.dir bm bw bes, by simp [openSlot, this]⟩
    intro out hout
    have hout2 : out = Node.dir bm bw bes := by
      simp only [openSlot] at hout
      split at hout
      · injection hout with hout
        exact hout.symm
      · cases hout
    subst hout2
    refine yields_bind (stackLoop_quiet fuel recur hrec _ top tail rfl hb ht hd hex) ?_
    intro es hes
    refine yields_bind (CHKSYS_quiet _ _ _ () rfl) ?_
    intro _ _
    exact yields_pure ⟨⟨rfl, hes⟩, rfl⟩

theorem frameMode_explode (base top : Node) (h : explodes base (dirStream top) = true) :
    frameMode base top = if base.wok then 0o1777 else 0o555 := by
  simp [frameMode, h]

theorem frameMode_stack (base top : Node) (h : explodes base (dirStream top) = false) :
    frameMode base top = base.mode := by
  simp [frameMode, h]

theorem merge_quiet : ∀ fuel, RecOK fuel (merge fuel) := by
  intro fuel
  induction fuel with
  | zero =>
    intro b t slot name st tail _ _ _ _ hd
    omega
  | succ fuel ih =>
    intro b t slot name st tail hbd htd hb ht hd hs
    unfold merge
    refine yields_bind (scanTop_quiet b (dirStream t)) ?_
    intro ex hex
    refine yields_bind (P := fun o => WovenN (fuel + 1) b t o ∧ o.mode = frameMode b t) ?_ ?_
    · cases hx : explodes b (dirStream t) with
      | true =>
        rw [hex, hx, if_pos rfl, frameMode_explode _ _ hx]
        exact explodeFrame_quiet fuel _ ih b t tail hbd hb ht hd slot name st hs
      | false =>
        rw [hex, hx, if_neg (by simp), frameMode_stack _ _ hx]
        exact stackFrame_quiet fuel _ ih b t tail hbd hb ht hd hx slot name st hs
    · intro v hv
      refine yields_bind (CHKSYS_quiet _ _ _ () rfl) ?_
      intro _ _
      refine yields_bind (CHKSYS_quiet _ _ _ () rfl) ?_
      intro _ _
      exact yields_pure hv

/-! ## Paths of a weave -/

theorem walk_nil (n : Node) : n.walk [] = some n := by
  cases n <;> rfl

theorem walk_dir_cons (m : Nat) (w : Access) (es : Ents) (name : Name) (rest : List Name) :
    (Node.dir m w es).walk (name :: rest) =
      match find name es with
      | some c => c.walk rest
      | none => none := by
  simp only [Node.walk]

theorem walk_nondir_cons (n : Node) (h : n.isDir = false) (name : Name) (rest : List Name) :
    n.walk (name :: rest) = none := by
  cases n with
  | dir _ _ _ => cases h
  | lnk _ => rfl
  | oth _ => rfl

theorem cuts_nondir_cons (n : Node) (h : n.isDir = false) (name : Name) (rest : List Name) :
    n.cuts (name :: rest) = true := by
  cases n with
  | dir _ _ _ => cases h
  | lnk _ => rfl
  | oth _ => rfl

/-- Along a path of top the weave shows top: the very object when it is not a
directory, a directory holding every entry of top's directory otherwise. -/
theorem woven_top : ∀ (p : List Name) (n : Nat) (b t o tn : Node),
    WovenN n b t o → t.isDir = true → t.walk p = some tn →
    ∃ ov, o.walk p = some ov ∧ (tn.isDir = false → ov = tn) ∧
      (tn.isDir = true → ov.isDir = true ∧
        ∀ name, (find name tn.ents).isSome = true → (find name ov.ents).isSome = true) := by
  intro p
  induction p with
  | nil =>
    intro n b t o tn hw htd hwalk
    rw [walk_nil] at hwalk
    injection hwalk with hwalk
    subst hwalk
    cases n with
    | zero => exact absurd hw (by simp [WovenN])
    | succ n =>
      obtain ⟨hod, hres⟩ := hw
      refine ⟨o, walk_nil o, fun h => ?_, fun _ => ⟨hod, ?_⟩⟩
      · rw [htd] at h; cases h
      intro name hsome
      have := hres name
      cases hf : find name t.ents with
      | none => rw [hf] at hsome; cases hsome
      | some c => rw [hf] at this; exact Res_isSome _ _ _ _ this
  | cons name rest ih =>
    intro n b t o tn hw htd hwalk
    obtain ⟨tm, tw, tes, rfl⟩ := (isDir_iff t).mp htd
    cases n with
    | zero => exact absurd hw (by simp [WovenN])
    | succ n =>
      obtain ⟨hod, hres⟩ := hw
      obtain ⟨om, ow, oes, rfl⟩ := (isDir_iff o).mp hod
      rw [walk_dir_cons] at hwalk
      rw [walk_dir_cons]
      have hr : Res (WovenN n) (find name tes) (find name b.ents) (find name oes) := hres name
      cases hf : find name tes with
      | none => rw [hf] at hwalk; cases hwalk
      | some c =>
        rw [hf] at hwalk hr
        simp only at hwalk
        have htriv : find name oes = some c →
            ∃ ov, (match find name oes with
              | some c => c.walk rest
              | none => none) = some ov ∧ (tn.isDir = false → ov = tn) ∧
              (tn.isDir = true → ov.isDir = true ∧
                ∀ name, (find name tn.ents).isSome = true → (find name ov.ents).isSome = true) := by
          intro ho
          rw [ho]
          exact ⟨tn, hwalk, fun _ => rfl, fun h => ⟨h, fun _ h2 => h2⟩⟩
        cases hbf : find name b.ents with
        | none =>
          rw [hbf] at hr
          simp only [Res] at hr
          exact htriv hr
        | some bn =>
          rw [hbf] at hr
          simp only [Res] at hr
          split at hr
          · rename_i hboth
            obtain ⟨ov, ho, hwov⟩ := hr
            rw [ho]
            exact ih n bn c ov tn hwov hboth.1 hwalk
          · exact htriv hr

/-- Off the paths of top, not below a non-directory of top and not below a common
directory that base does not let open, the weave shows base. -/
theorem woven_base : ∀ (p : List Name) (n : Nat) (b t o : Node),
    WovenN n b t o → t.isDir = true → b.isDir = true → t.walk p = none → t.cuts p = false →
    lost b t p = false → o.walk p = b.walk p := by
  intro p
  induction p with
  | nil =>
    intro n b t o _ _ _ hwalk _ _
    rw [walk_nil] at hwalk
    cases hwalk
  | cons name rest ih =>
    intro n b t o hw htd hbd hwalk hcut hlost
    obtain ⟨tm, tw, tes, rfl⟩ := (isDir_iff t).mp htd
    obtain ⟨bm, bw, bes, rfl⟩ := (isDir_iff b).mp hbd
    simp only [lost, Node.ents] at hlost
    cases n with
    | zero => exact absurd hw (by simp [WovenN])
    | succ n =>
      obtain ⟨hod, hres⟩ := hw
      obtain ⟨om, ow, oes, rfl⟩ := (isDir_iff o).mp hod
      rw [walk_dir_cons] at hwalk
      rw [walk_dir_cons, walk_dir_cons]
      simp only [Node.cuts] at hcut
      have hr : Res (WovenN n) (find name tes) (find name bes) (find name oes) := hres name
      cases hf : find name tes with
      | none =>
        rw [hf] at hr
        simp only [Res] at hr
        rw [hr]
      | some c =>
        rw [hf] at hwalk hr hcut hlost
        simp only at hwalk hcut
        cases hcd : c.isDir with
        | false =>
          cases rest with
          | nil => rw [walk_nil] at hwalk; cases hwalk
          | cons r rs => rw [cuts_nondir_cons c hcd] at hcut; cases hcut
        | true =>
          cases hbf : find name bes with
          | none =>
            rw [hbf] at hr
            simp only [Res] at hr
            rw [hr]
            exact hwalk
          | some bn =>
            rw [hbf] at hr hlost
            simp only [Res] at hr
            simp only [hcd, Bool.and_true] at hlost
            split at hr
            · rename_i hboth
              obtain ⟨ov, ho, hwov⟩ := hr
              rw [ho]
              have hbd2 := rok_isDir bn hboth.2
              simp only [hbd2, Bool.true_and, Bool.or_eq_false_iff] at hlost
              exact ih n bn c ov hwov hboth.1 hbd2 hwalk hcut hlost.2
            · rename_i hnot
              rw [hr]
              simp only [hwalk]
              have hbr : bn.rok = false := by
                cases h : bn.rok with
                | false => rfl
                | true => exact absurd ⟨hcd, h⟩ hnot
              cases rest with
              | nil => rw [walk_nil] at hwalk; cases hwalk
              | cons r rs =>
                cases hbd2 : bn.isDir with
                | false => rw [walk_nondir_cons bn hbd2]
                | true => simp [hbd2, hbr] at hlost

/-- The top-level call in a quiet world: it ends in a quiet world; when it
finishes, its output is the weave, with the mode of the root frame; and it
finishes on a smooth pair. -/
theorem weave_quiet (fuel : Nat) (base top : Node) (hbd : base.isDir = true)
    (htd : top.isDir = true) (hb : base.wf = true) (ht : top.wf = true)
    (hfuel : top.depth < fuel) :
    Quiet (weave fuel base top).2 ∧
    (∀ o, (weave fuel base top).1 = .done o →
      WovenN fuel base top o ∧ o.mode = frameMode base top) ∧
    (Smooth base top 1 → ∃ o, (weave fuel base top).1 = .done o) :=
  merge_quiet fuel base top (some emptyDir) "/newroot" .kRoot 1
    hbd htd hb ht hfuel ⟨_, _, _, rfl⟩ ⟨[], [], []⟩ ⟨rfl, fun r hr => (by cases hr),
      fun e he => (by cases he)⟩

theorem finished_iff (r : Outcome Node × World) :
    finished r = true ↔ ∃ o, r.1 = .done o := by
  obtain ⟨o, w⟩ := r
  cases o <;> simp [finished]

theorem done_fst (r : Outcome Node × World) (o : Node) (w : World) (h : r = (.done o, w)) :
    r.1 = .done o := by
  rw [h]

/-! ## The loops are loops over `nextent` -/

theorem sys_bind_assoc {α β γ : Type} (m : Sys α) (f : α → Sys β) (g : β → Sys γ) :
    (m >>= f) >>= g = m >>= fun a => f a >>= g := by
  funext w
  show Sys.bind (Sys.bind m f) g w = Sys.bind m (fun a => Sys.bind (f a) g) w
  unfold Sys.bind
  rcases m w with ⟨o, w1⟩
  cases o <;> rfl

/-- The loop `forEnt` is `while ((d = nextent(dirp))) body`. -/
theorem forEnt_nextent {σ : Type} (body : Dirent → σ → Sys σ) :
    ∀ (ds : List Dirent) (s : σ),
      forEnt body ds s = (nextent ds >>= fun r =>
        match r with
        | none => pure s
        | some (d, rest) => body d s >>= fun s1 => forEnt body rest s1) := by
  intro ds
  induction ds with
  | nil =>
    intro s
    conv_lhs => unfold forEnt
    conv_rhs => unfold nextent
    rw [sys_bind_assoc]
    congr 1
    funext r
    cases r <;> rfl
  | cons d rest ih =>
    intro s
    conv_lhs => unfold forEnt
    conv_rhs => unfold nextent
    rw [sys_bind_assoc]
    congr 1
    funext r
    cases r with
    | error e => rfl
    | ok u =>
      simp only
      by_cases hdot : isDot d.d_name = true
      · rw [if_pos hdot, if_pos hdot]
        exact ih s
      · rw [if_neg hdot, if_neg hdot]
        rfl

/-- The scan is `while ((d = nextent(topdir)))` with the test of lines 86-87 and
its `break`. -/
theorem scanTop_nextent (base : Node) :
    ∀ ds : List Dirent,
      scanTop base ds = (nextent ds >>= fun r =>
        match r with
        | none => pure false
        | some (d, rest) =>
          syscall .fstatat_scan d.d_name (fstatat base d.d_name) >>= fun r2 =>
            match r2 with
            | .error _ => pure true
            | .ok st =>
              if (d.d_type == .DT_DIR) != st.isDir then pure true
              else scanTop base rest) := by
  intro ds
  induction ds with
  | nil =>
    conv_lhs => unfold scanTop
    conv_rhs => unfold nextent
    rw [sys_bind_assoc]
    congr 1
    funext r
    cases r <;> rfl
  | cons d rest ih =>
    conv_lhs => unfold scanTop
    conv_rhs => unfold nextent
    rw [sys_bind_assoc]
    congr 1
    funext r
    cases r with
    | error e => rfl
    | ok u =>
      simp only
      by_cases hdot : isDot d.d_name = true
      · rw [if_pos hdot, if_pos hdot]
        exact ih
      · rw [if_neg hdot, if_neg hdot]
        rfl

/-- The entries `nextent` skips are exactly `.` and `..`. -/
theorem isDot_iff (n : Name) : isDot n = true ↔ n = "." ∨ n = ".." := by
  obtain ⟨cs⟩ := n
  constructor
  · intro h
    simp only [isDot] at h
    cases cs with
    | nil => cases h
    | cons c0 rest =>
      simp only [Bool.and_eq_true, beq_iff_eq] at h
      obtain ⟨h0, h1⟩ := h
      subst h0
      cases rest with
      | nil => left; rfl
      | cons c1 rest2 =>
        simp only [Bool.and_eq_true, beq_iff_eq] at h1
        obtain ⟨h2, h3⟩ := h1
        subst h2
        cases rest2 with
        | nil => right; rfl
        | cons _ _ => cases h3
  · intro h
    rcases h with h | h <;> rw [h] <;> decide

/-- The predicate `cuts`: a proper ancestor of the path is a non-directory. -/
theorem cuts_iff : ∀ (p : List Name) (n : Node),
    n.cuts p = true ↔
      ∃ q r c, p = q ++ r ∧ r ≠ [] ∧ n.walk q = some c ∧ c.isDir = false := by
  intro p
  induction p with
  | nil =>
    intro n
    constructor
    · intro h
      cases n <;> simp [Node.cuts] at h
    · rintro ⟨q, r, c, hp, hr, -, -⟩
      have := List.append_eq_nil.mp hp.symm
      exact absurd this.2 hr
  | cons name rest ih =>
    intro n
    cases n with
    | dir m w es =>
      simp only [Node.cuts]
      cases hf : find name es with
      | none =>
        simp only [Bool.false_eq_true, false_iff]
        rintro ⟨q, r, c, hp, hr, hw, hc⟩
        cases q with
        | nil =>
          rw [walk_nil] at hw
          injection hw with hw
          subst hw
          cases hc
        | cons a q2 =>
          simp only [List.cons_append, List.cons.injEq] at hp
          obtain ⟨ha, -⟩ := hp
          subst ha
          rw [walk_dir_cons, hf] at hw
          cases hw
      | some c0 =>
        simp only
        rw [ih c0]
        constructor
        · rintro ⟨q, r, c, hp, hr, hw, hc⟩
          refine ⟨name :: q, r, c, by rw [hp]; rfl, hr, ?_, hc⟩
          rw [walk_dir_cons, hf]
          exact hw
        · rintro ⟨q, r, c, hp, hr, hw, hc⟩
          cases q with
          | nil =>
            rw [walk_nil] at hw
            injection hw with hw
            subst hw
            cases hc
          | cons a q2 =>
            simp only [List.cons_append, List.cons.injEq] at hp
            obtain ⟨ha, hrest⟩ := hp
            subst ha
            rw [walk_dir_cons, hf] at hw
            exact ⟨q2, r, c, hrest, hr, hw, hc⟩
    | lnk t =>
      simp only [Node.cuts, true_iff]
      exact ⟨[], name :: rest, Node.lnk t, rfl, by simp, rfl, rfl⟩
    | oth s =>
      simp only [Node.cuts, true_iff]
      exact ⟨[], name :: rest, Node.oth s, rfl, by simp, rfl, rfl⟩

theorem explodes_false_iff (base top : Node) :
    explodes base (dirStream top) = false ↔ Stackable base top := by
  rw [explodes_dirStream]
  simp only [explodes, List.any_eq_false, List.mem_map, forall_exists_index, and_imp, Stackable]
  constructor
  · intro h e he hd
    have := h (toDirent e) e he rfl
    simp only [toDirent, hd, Bool.not_false, Bool.true_and, Bool.not_eq_true] at this
    simp only [mismatch] at this
    cases hf : find e.1 base.ents with
    | none => rw [hf] at this; cases this
    | some b =>
      rw [hf] at this
      refine ⟨b, rfl, ?_⟩
      rw [dtype_dir] at this
      simp only [bne_eq_false_iff_eq] at this
      rw [this]
  · intro h d e he hde
    subst hde
    cases hd : isDot e.1 with
    | true => simp [toDirent, hd]
    | false =>
      obtain ⟨b, hb, hk⟩ := h e he hd
      simp only [toDirent, hd, Bool.not_false, Bool.true_and, Bool.not_eq_true, mismatch, hb,
        dtype_dir, bne_eq_false_iff_eq]
      cases h1 : e.2.isDir <;> cases h2 : b.isDir <;> simp_all

/-! ## The claims on the output tree -/

/-- C1, top wins. For well-formed directory trees `base` and `top` and enough
fuel: the weave finishes when every directory of base and of top can be opened
and the paths of the directories of top fit in `outpath`; and whenever the
weave finishes, at every path that exists in both with the same directory-ness
the output shows top: for a non-directory the very object of top (its file or
symlink); for a directory a directory that holds every entry of top's
directory. -/
theorem top_wins (fuel : Nat) (base top : Node) (hbd : base.isDir = true)
    (htd : top.isDir = true) (hb : base.wf = true) (ht : top.wf = true)
    (hfuel : top.depth < fuel) :
    (base.readable = true → top.readable = true → top.fits 1 = true →
      finished (weave fuel base top) = true) ∧
    ∀ o w, weave fuel base top = (.done o, w) →
      ∀ p nb nt, base.walk p = some nb → top.walk p = some nt → nb.isDir = nt.isDir →
        (nt.isDir = false → o.walk p = some nt) ∧
        (nt.isDir = true → ∃ ov, o.walk p = some ov ∧ ov.isDir = true ∧
          ∀ name, (find name nt.ents).isSome = true → (find name ov.ents).isSome = true) := by
  obtain ⟨-, hpost, htotal⟩ := weave_quiet fuel base top hbd htd hb ht hfuel
  refine ⟨fun h1 h2 h3 => (finished_iff _).mpr (htotal ⟨h1, h2, h3⟩), ?_⟩
  intro o w hrun p nb nt _ hpt _
  obtain ⟨hw, -⟩ := hpost o (done_fst _ o w hrun)
  obtain ⟨ov, h1, h2, h3⟩ := woven_top p fuel base top o nt hw htd hpt
  refine ⟨fun h => ?_, fun h => ⟨ov, h1, h3 h⟩⟩
  rw [h1, h2 h]

theorem top_wins_witness :
    (s1Base.isDir = true ∧ s1Top.isDir = true ∧ s1Base.wf = true ∧ s1Top.wf = true ∧
      s1Top.depth < 3 ∧ s1Base.readable = true ∧ s1Top.readable = true ∧
      s1Top.fits 1 = true) ∧
    finished (weave 3 s1Base s1Top) = true ∧
    ∀ o w, weave 3 s1Base s1Top = (.done o, w) →
      ∀ p nb nt, s1Base.walk p = some nb → s1Top.walk p = some nt → nb.isDir = nt.isDir →
        (nt.isDir = false → o.walk p = some nt) ∧
        (nt.isDir = true → ∃ ov, o.walk p = some ov ∧ ov.isDir = true ∧
          ∀ name, (find name nt.ents).isSome = true → (find name ov.ents).isSome = true) :=
  ⟨by decide!,
    (top_wins 3 s1Base s1Top (by decide!) (by decide!) (by decide!) (by decide!)
      (by decide!)).1 (by decide!) (by decide!) (by decide!),
    (top_wins 3 s1Base s1Top (by decide!) (by decide!) (by decide!) (by decide!)
      (by decide!)).2⟩

/-- C2 as amended, coverage. For well-formed directory trees and enough fuel: the
weave finishes when every directory of base and of top can be opened and the
paths of the directories of top fit in `outpath`; and whenever the weave
finishes, the output has an object at every path of top, and at every path of
base that lies neither below a non-directory of top nor below a directory of base
and top that cannot be opened in base. -/
theorem coverage (fuel : Nat) (base top : Node) (hbd : base.isDir = true)
    (htd : top.isDir = true) (hb : base.wf = true) (ht : top.wf = true)
    (hfuel : top.depth < fuel) :
    (base.readable = true → top.readable = true → top.fits 1 = true →
      finished (weave fuel base top) = true) ∧
    ∀ o w, weave fuel base top = (.done o, w) →
      ∀ p, ((top.walk p).isSome = true ∨
          ((base.walk p).isSome = true ∧ top.cuts p = false ∧ lost base top p = false)) →
        (o.walk p).isSome = true := by
  obtain ⟨-, hpost, htotal⟩ := weave_quiet fuel base top hbd htd hb ht hfuel
  refine ⟨fun h1 h2 h3 => (finished_iff _).mpr (htotal ⟨h1, h2, h3⟩), ?_⟩
  intro o w hrun p hp
  obtain ⟨hw, -⟩ := hpost o (done_fst _ o w hrun)
  have htop : ∀ nt, top.walk p = some nt → (o.walk p).isSome = true := by
    intro nt hnt
    obtain ⟨ov, h1, -, -⟩ := woven_top p fuel base top o nt hw htd hnt
    rw [h1]; rfl
  cases hpt : top.walk p with
  | some nt => exact htop nt hpt
  | none =>
    rcases hp with h | ⟨h1, h2, h3⟩
    · rw [hpt] at h; cases h
    · rw [woven_base p fuel base top o hw htd hbd hpt h2 h3]; exact h1

theorem coverage_witness :
    (s3Base.isDir = true ∧ s3Top.isDir = true ∧ s3Base.wf = true ∧ s3Top.wf = true ∧
      s3Top.depth < 2 ∧ s3Base.readable = true ∧ s3Top.readable = true ∧
      s3Top.fits 1 = true) ∧
    finished (weave 2 s3Base s3Top) = true ∧
    ∀ o w, weave 2 s3Base s3Top = (.done o, w) →
      ∀ p, ((s3Top.walk p).isSome = true ∨
          ((s3Base.walk p).isSome = true ∧ s3Top.cuts p = false ∧
            lost s3Base s3Top p = false)) →
        (o.walk p).isSome = true :=
  ⟨by decide!,
    (coverage 2 s3Base s3Top (by decide!) (by decide!) (by decide!) (by decide!)
      (by decide!)).1 (by decide!) (by decide!) (by decide!),
    (coverage 2 s3Base s3Top (by decide!) (by decide!) (by decide!) (by decide!)
      (by decide!)).2⟩

/-- C2 as stated fails: `a/f` exists in base, where `a` is a directory, and `a` is
a file in top; the weave finishes and the output has top's file at `a` and
nothing at `a/f`. -/
theorem coverage_counterexample :
    finished (weave 2 hidBase hidTop) = true ∧
    (hidBase.walk ["a", "f"]).isSome = true ∧
    seen (weave 2 hidBase hidTop) ["a", "f"] = none ∧
    seen (weave 2 hidBase hidTop) ["a"] = some (.oth "2") := by decide!

/-- C3 as amended, base visible when unique. For well-formed directory trees and
enough fuel: the weave finishes when every directory of base and of top can be
opened and the paths of the directories of top fit in `outpath`; and whenever
the weave finishes, at every path that exists in base, does not exist in top,
and lies neither below a non-directory of top nor below a directory of base and
top that cannot be opened in base, the output shows the object of base. -/
theorem base_visible (fuel : Nat) (base top : Node) (hbd : base.isDir = true)
    (htd : top.isDir = true) (hb : base.wf = true) (ht : top.wf = true)
    (hfuel : top.depth < fuel) :
    (base.readable = true → top.readable = true → top.fits 1 = true →
      finished (weave fuel base top) = true) ∧
    ∀ o w, weave fuel base top = (.done o, w) →
      ∀ p nb, base.walk p = some nb → top.walk p = none → top.cuts p = false →
        lost base top p = false → o.walk p = some nb := by
  obtain ⟨-, hpost, htotal⟩ := weave_quiet fuel base top hbd htd hb ht hfuel
  refine ⟨fun h1 h2 h3 => (finished_iff _).mpr (htotal ⟨h1, h2, h3⟩), ?_⟩
  intro o w hrun p nb hpb hpt hcut hlost
  obtain ⟨hw, -⟩ := hpost o (done_fst _ o w hrun)
  rw [woven_base p fuel base top o hw htd hbd hpt hcut hlost]; exact hpb

theorem base_visible_witness :
    (s2Base.isDir = true ∧ s2Top.isDir = true ∧ s2Base.wf = true ∧ s2Top.wf = true ∧
      s2Top.depth < 4 ∧ s2Base.readable = true ∧ s2Top.readable = true ∧
      s2Top.fits 1 = true) ∧
    finished (weave 4 s2Base s2Top) = true ∧
    ∀ o w, weave 4 s2Base s2Top = (.done o, w) →
      ∀ p nb, s2Base.walk p = some nb → s2Top.walk p = none → s2Top.cuts p = false →
        lost s2Base s2Top p = false → o.walk p = some nb :=
  ⟨by decide!,
    (base_visible 4 s2Base s2Top (by decide!) (by decide!) (by decide!) (by decide!)
      (by decide!)).1 (by decide!) (by decide!) (by decide!),
    (base_visible 4 s2Base s2Top (by decide!) (by decide!) (by decide!) (by decide!)
      (by decide!)).2⟩

/-- C3 as stated fails: `lib/x/y` exists in base and not in top, where `lib/x` is
a file; the weave finishes and the output has nothing at `lib/x/y`, while the
file `lib/z` of base is there. -/
theorem base_visible_counterexample :
    finished (weave 3 deepBase deepTop) = true ∧
    deepBase.walk ["lib", "x", "y"] = some (.oth "Y") ∧
    deepTop.walk ["lib", "x", "y"] = none ∧
    seen (weave 3 deepBase deepTop) ["lib", "x", "y"] = none ∧
    seen (weave 3 deepBase deepTop) ["lib", "x"] = some (.oth "X") ∧
    seen (weave 3 deepBase deepTop) ["lib", "z"] = some (.oth "Z") := by decide!

/-- C5 as amended, symlink fidelity. For well-formed directory trees and enough
fuel: the weave finishes when every directory of base and of top can be opened
and the paths of the directories of top fit in `outpath`; and whenever the
weave finishes, the output has a symlink with the same target at the path of
every symlink of top, and of every symlink of base whose path does not exist in
top and lies neither below a non-directory of top nor below a directory of base
and top that cannot be opened in base. On a symlink whose target has no NUL and
at most `PATH_MAX` bytes, `do_readlinkat` returns and leaves the exact target in
`buf`. -/
theorem symlink_fidelity (fuel : Nat) (base top : Node) (hbd : base.isDir = true)
    (htd : top.isDir = true) (hb : base.wf = true) (ht : top.wf = true)
    (hfuel : top.depth < fuel) :
    (base.readable = true → top.readable = true → top.fits 1 = true →
      finished (weave fuel base top) = true) ∧
    (∀ o w, weave fuel base top = (.done o, w) →
      ∀ p tg, (top.walk p = some (.lnk tg) ∨
          (base.walk p = some (.lnk tg) ∧ top.walk p = none ∧ top.cuts p = false ∧
            lost base top p = false)) →
        o.walk p = some (.lnk tg)) ∧
    (∀ (dir : Node) (name : Name) (tg : List Char), find name dir.ents = some (.lnk tg) →
      tg.length ≤ PATH_MAX → Char.ofNat 0 ∉ tg →
      (do_readlinkat dir name ⟨[], [], []⟩).1 = .done tg) := by
  obtain ⟨-, hpost, htotal⟩ := weave_quiet fuel base top hbd htd hb ht hfuel
  refine ⟨fun h1 h2 h3 => (finished_iff _).mpr (htotal ⟨h1, h2, h3⟩), ?_, ?_⟩
  · intro o w hrun p tg hp
    obtain ⟨hw, -⟩ := hpost o (done_fst _ o w hrun)
    rcases hp with h | ⟨h1, h2, h3, h4⟩
    · obtain ⟨ov, h4, h5, -⟩ := woven_top p fuel base top o _ hw htd h
      rw [h4, h5 rfl]
    · rw [woven_base p fuel base top o hw htd hbd h2 h3 h4]; exact h1
  · intro dir name tg hf hlen hnul
    have hwf : (Node.lnk tg).wf = true := by
      simp only [Node.wf, Bool.and_eq_true, decide_eq_true_eq, Bool.not_eq_true']
      refine ⟨hlen, ?_⟩
      cases hc : tg.contains (Char.ofNat 0) with
      | false => rfl
      | true => exact absurd (by simpa using hc) hnul
    obtain ⟨-, h1, h2⟩ := do_readlinkat_quiet (S := True) dir name tg hf hwf ⟨[], [], []⟩
      ⟨rfl, fun r hr => (by cases hr), fun e he => (by cases he)⟩
    obtain ⟨a, ha⟩ := h2 trivial
    rw [ha, h1 a ha]

theorem symlink_fidelity_witness :
    (s5Base.isDir = true ∧ s5Top.isDir = true ∧ s5Base.wf = true ∧ s5Top.wf = true ∧
      s5Top.depth < 3 ∧ s5Base.readable = true ∧ s5Top.readable = true ∧
      s5Top.fits 1 = true) ∧
    finished (weave 3 s5Base s5Top) = true ∧
    (∀ o w, weave 3 s5Base s5Top = (.done o, w) →
      ∀ p tg, (s5Top.walk p = some (.lnk tg) ∨
          (s5Base.walk p = some (.lnk tg) ∧ s5Top.walk p = none ∧ s5Top.cuts p = false ∧
            lost s5Base s5Top p = false)) →
        o.walk p = some (.lnk tg)) ∧
    (∀ (dir : Node) (name : Name) (tg : List Char), find name dir.ents = some (.lnk tg) →
      tg.length ≤ PATH_MAX → Char.ofNat 0 ∉ tg →
      (do_readlinkat dir name ⟨[], [], []⟩).1 = .done tg) :=
  ⟨by decide!,
    (symlink_fidelity 3 s5Base s5Top (by decide!) (by decide!) (by decide!) (by decide!)
      (by decide!)).1 (by decide!) (by decide!) (by decide!),
    (symlink_fidelity 3 s5Base s5Top (by decide!) (by decide!) (by decide!) (by decide!)
      (by decide!)).2⟩

/-- C5 as stated fails: `s` is a symlink in base and a file in top; the weave
finishes and the output has top's file at `s`, no symlink. -/
theorem symlink_fidelity_counterexample :
    finished (weave 2 lnkBase lnkTop) = true ∧
    lnkBase.walk ["s"] = some (.lnk "target".toList) ∧
    seen (weave 2 lnkBase lnkTop) ["s"] = some (.oth "file") := by decide!

/-- C6 as amended, root mode. For well-formed directory trees and enough fuel: the
weave finishes when every directory of base and of top can be opened and the
paths of the directories of top fit in `outpath`; and whenever the weave
finishes: when the root frame explodes (top is not stackable on base) the mode
of the output root is 0555 if the `W_OK` check on the base root fails and 01777
otherwise; when the root frame stacks, the output root is the bound base root
and has the mode of the base root. -/
theorem root_mode (fuel : Nat) (base top : Node) (hbd : base.isDir = true)
    (htd : top.isDir = true) (hb : base.wf = true) (ht : top.wf = true)
    (hfuel : top.depth < fuel) :
    (base.readable = true → top.readable = true → top.fits 1 = true →
      finished (weave fuel base top) = true) ∧
    ∀ o w, weave fuel base top = (.done o, w) →
      (¬ Stackable base top → o.mode = if base.wok then 0o1777 else 0o555) ∧
      (Stackable base top → o.mode = base.mode) := by
  obtain ⟨-, hpost, htotal⟩ := weave_quiet fuel base top hbd htd hb ht hfuel
  refine ⟨fun h1 h2 h3 => (finished_iff _).mpr (htotal ⟨h1, h2, h3⟩), ?_⟩
  intro o w hrun
  obtain ⟨-, hm⟩ := hpost o (done_fst _ o w hrun)
  refine ⟨?_, ?_⟩
  · intro h
    rw [hm]
    apply frameMode_explode
    cases hx : explodes base (dirStream top) with
    | true => rfl
    | false => exact absurd ((explodes_false_iff base top).mp hx) h
  · intro h
    rw [hm]
    exact frameMode_stack _ _ ((explodes_false_iff base top).mpr h)

theorem root_mode_witness :
    (s2Base.isDir = true ∧ s2Top.isDir = true ∧ s2Base.wf = true ∧ s2Top.wf = true ∧
      s2Top.depth < 4 ∧ s2Base.readable = true ∧ s2Top.readable = true ∧
      s2Top.fits 1 = true) ∧
    finished (weave 4 s2Base s2Top) = true ∧
    ∀ o w, weave 4 s2Base s2Top = (.done o, w) →
      (¬ Stackable s2Base s2Top → o.mode = if s2Base.wok then 0o1777 else 0o555) ∧
      (Stackable s2Base s2Top → o.mode = s2Base.mode) :=
  ⟨by decide!,
    (root_mode 4 s2Base s2Top (by decide!) (by decide!) (by decide!) (by decide!)
      (by decide!)).1 (by decide!) (by decide!) (by decide!),
    (root_mode 4 s2Base s2Top (by decide!) (by decide!) (by decide!) (by decide!)
      (by decide!)).2⟩

/-- C6 as stated fails: with an empty top the root frame stacks; the base root is
not writable and has mode 0755, and the output root has mode 0755, not 0555. -/
theorem root_mode_counterexample :
    emptyRo.wok = false ∧
    (output (weave 1 emptyRo emptyRo)).map Node.mode = some 0o755 := by decide!

/-! ## Where the weave does not finish, or drops a directory of base -/

/-- With 16 nested directories of 255-byte names in base and in top, the `sprintf`
before the sixteenth recursive call writes beyond the `PATH_MAX` bytes of
`outpath`; with 15 of them the weave finishes. -/
theorem outpath_overrun :
    (chain 16).wf = true ∧ (chain 16).readable = true ∧ (chain 16).fits 1 = false ∧
    (weave 18 (chain 16) (chain 16)).1 = .overrun ∧
    (chain 15).fits 1 = true ∧
    finished (weave 17 (chain 15) (chain 15)) = true := by decide!

/-- On the stack path a directory of base that cannot be opened ends the process:
the `openat` of line 159 fails with `EACCES` under `CHKSYS`. -/
theorem unreadable_stack :
    shutBase.readable = false ∧
    (weave 3 shutBase shutTop).1 = .abort 255 ∧
    Event.mk .openat_base_stack "a" (some EACCES) ∈ (weave 3 shutBase shutTop).2.trace := by
  decide!

/-- On the explode path the `openat` of line 107 takes `EACCES` for the lack of a
directory in base: top's directory is bound, pass 2 skips the directory of base
on `EEXIST`, the weave finishes and what base has below the directory is not in
the output. -/
theorem unreadable_explode :
    finished (weave 3 shutBase shutTopNew) = true ∧
    Event.mk .openat_base_pass1 "a" (some EACCES) ∈ (weave 3 shutBase shutTopNew).2.trace ∧
    shutBase.walk ["a", "f"] = some (.oth "1") ∧
    shutTopNew.walk ["a", "f"] = none ∧
    shutTopNew.cuts ["a", "f"] = false ∧
    lost shutBase shutTopNew ["a", "f"] = true ∧
    seen (weave 3 shutBase shutTopNew) ["a", "f"] = none ∧
    seen (weave 3 shutBase shutTopNew) ["a", "g"] = some (.oth "2") := by decide!

/-! ## The explode decision -/

theorem syscall_run {α : Type} (c : Call) (arg : Name) (nat : Except Nat α) (w : World)
    (h : w.faults = []) :
    syscall c arg nat w = (.done nat, ⟨[], w.trace ++ [Event.mk c arg (errnoOf nat)], w.binds⟩) := by
  obtain ⟨fs, tr, bs⟩ := w
  simp only at h
  subst h
  rfl

theorem scanTop_run (base : Node) : ∀ (ds : List Dirent) (w : World), w.faults = [] →
    ∃ w1, scanTop base ds w = (.done (explodes base ds), w1) ∧ w1.faults = [] := by
  intro ds
  induction ds with
  | nil =>
    intro w hw
    unfold scanTop
    rw [bind_run, syscall_run _ _ _ w hw]
    exact ⟨_, rfl, rfl⟩
  | cons d rest ih =>
    intro w hw
    unfold scanTop
    rw [bind_run, syscall_run _ _ _ w hw]
    simp only
    cases hdot : isDot d.d_name with
    | true =>
      simp only [if_true]
      obtain ⟨w1, h1, h2⟩ := ih ⟨[], w.trace ++ [Event.mk .readdir d.d_name none], w.binds⟩ rfl
      refine ⟨w1, ?_, h2⟩
      simp only [errnoOf]
      rw [h1]
      simp [explodes, hdot]
    | false =>
      simp only [Bool.false_eq_true, if_false]
      rw [bind_run, syscall_run _ _ _ _ rfl]
      cases hfd : find d.d_name base.ents with
      | none =>
        simp only [fstatat, hfd]
        have hx : explodes base (d :: rest) = true := by simp [explodes, hdot, mismatch, hfd]
        rw [hx]
        exact ⟨_, rfl, rfl⟩
      | some b =>
        simp only [fstatat, hfd]
        cases hm : ((d.d_type == DType.DT_DIR) != b.isDir) with
        | true =>
          simp only [if_true]
          have hx : explodes base (d :: rest) = true := by
            simp [explodes, hdot, mismatch, hfd, hm]
          rw [hx]
          exact ⟨_, rfl, rfl⟩
        | false =>
          simp only [Bool.false_eq_true, if_false]
          obtain ⟨w1, h1, h2⟩ := ih ⟨[], (w.trace ++ [Event.mk .readdir d.d_name none]) ++
            [Event.mk .fstatat_scan d.d_name none], w.binds⟩ rfl
          refine ⟨w1, ?_, h2⟩
          simp only [errnoOf]
          rw [h1]
          simp [explodes, hdot, mismatch, hfd, hm]

/-- C4, the explode decision. In a world without injected faults the scan of a
frame finishes with the flag `explode`, which is false exactly when every entry
of top that is not `.` or `..` has a same-named entry in base of the same
directory-ness; `merge` goes on with the stack path when the flag is false and
with the explode path otherwise. An empty top stacks, and so does a top whose
entries are non-directories over non-directories of base. -/
theorem explode_decision (fuel : Nat) (base top : Node) (slot : Option Node)
    (outname : Name) (st : State) (tail : Nat) (w : World) (hw : w.faults = []) :
    ∃ ex w1, scanTop base (dirStream top) w = (.done ex, w1) ∧
      (ex = false ↔ Stackable base top) ∧
      merge (fuel + 1) base top slot outname st tail w =
        ((if ex then explodeFrame (merge fuel) base top slot outname st tail
          else stackFrame (merge fuel) base top slot outname st tail) >>= fun v => do
            CHKSYS .closedir_top outname (.ok ())
            CHKSYS .closedir_base outname (.ok ())
            pure v) w1 ∧
      (top.ents = [] → ex = false) ∧
      ((∀ e ∈ top.ents, e.2.isDir = false ∧
          ∃ b, find e.1 base.ents = some b ∧ b.isDir = false) → ex = false) := by
  obtain ⟨w1, h1, -⟩ := scanTop_run base (dirStream top) w hw
  refine ⟨_, w1, h1, explodes_false_iff base top, ?_, ?_, ?_⟩
  · show (scanTop base (dirStream top) >>= _) w = _
    rw [bind_run, h1]
  · intro he
    rw [explodes_false_iff]
    intro e hmem
    rw [he] at hmem
    cases hmem
  · intro h
    rw [explodes_false_iff]
    intro e hmem _
    obtain ⟨h2, b, h3, h4⟩ := h e hmem
    exact ⟨b, h3, by rw [h2, h4]⟩

theorem explode_decision_witness :
    (World.mk [] [] []).faults = [] ∧
    ∃ ex w1, scanTop s5BaseBin (dirStream s5TopBin) ⟨[], [], []⟩ = (.done ex, w1) ∧
      (ex = false ↔ Stackable s5BaseBin s5TopBin) ∧
      merge (1 + 1) s5BaseBin s5TopBin (some s5BaseBin) "bin" .kBase 5 ⟨[], [], []⟩ =
        ((if ex then explodeFrame (merge 1) s5BaseBin s5TopBin (some s5BaseBin) "bin" .kBase 5
          else stackFrame (merge 1) s5BaseBin s5TopBin (some s5BaseBin) "bin" .kBase 5) >>=
          fun v => do
            CHKSYS .closedir_top "bin" (.ok ())
            CHKSYS .closedir_base "bin" (.ok ())
            pure v) w1 ∧
      (s5TopBin.ents = [] → ex = false) ∧
      ((∀ e ∈ s5TopBin.ents, e.2.isDir = false ∧
          ∃ b, find e.1 s5BaseBin.ents = some b ∧ b.isDir = false) → ex = false) :=
  ⟨rfl, explode_decision 1 s5BaseBin s5TopBin (some s5BaseBin) "bin" .kBase 5 ⟨[], [], []⟩ rfl⟩

/-! ## Scenario S5 -/

/-- C9 as amended, scenario S5. The frame of the pair (base `/bin`, top `/bin`)
takes the stack path: its scan ends with `explode = 0`, its output directory is
opened by the `openat` of the stack path, and no tmpfs is mounted in the whole
run. The weave finishes; the output has at `/bin/sh` a symlink with target
`/bin/dash` and at `/bin/dash` the file of base. -/
theorem s5_scenario :
    (scanTop s5BaseBin (dirStream s5TopBin) ⟨[], [], []⟩).1 = .done false ∧
    finished (weave 3 s5Base s5Top) = true ∧
    Event.mk .openat_out_stack "bin" none ∈ (weave 3 s5Base s5Top).2.trace ∧
    seen (weave 3 s5Base s5Top) ["bin", "sh"] = some (.lnk "/bin/dash".toList) ∧
    seen (weave 3 s5Base s5Top) ["bin", "dash"] = some (.oth "dash") ∧
    s5Base.walk ["bin", "dash"] = some (.oth "dash") := by decide!

/-- C9 as stated fails: in scenario S5 the frame of `/bin` does not take the
explode path. Its scan ends with `explode = 0`, and the run never mounts a
tmpfs nor opens an output directory on the explode path. -/
theorem s5_counterexample :
    (scanTop s5BaseBin (dirStream s5TopBin) ⟨[], [], []⟩).1 = .done false ∧
    (∀ ev ∈ (weave 3 s5Base s5Top).2.trace,
      ev.call ≠ .mount_tmpfs ∧ ev.call ≠ .openat_out_explode) := by decide!

/-! ## The invocation -/

/-- C8, invocation parsing. When every argument from index 2 on contains `=` (so
also when `argc <= 2`), `main` calls `putenv` on them and leaves with status 1
through the usage message, without a namespace or mount operation. Otherwise,
with `e` the least index from 2 on whose argument has no `=`, `main` calls
`putenv` on exactly `argv[2..e-1]` in that order, opens `argv[1]` as the overlay
tree and in the end calls `execvp(argv[e], argv+e)`. -/
theorem main_invocation (argv : List String) :
    ((∀ i, 2 ≤ i → i < argv.length → hasEq (argv.getD i "") = true) →
      main argv = (argv.drop 2).map Step.putenv ++ [.usage 1] ∧
      ∀ s ∈ main argv, s.isNamespaceOrMount = false) ∧
    (∀ e, 2 ≤ e → e < argv.length → hasEq (argv.getD e "") = false →
      (∀ i, 2 ≤ i → i < e → hasEq (argv.getD i "") = true) →
      main argv = ((argv.take e).drop 2).map Step.putenv ++
        [.getcwd, .unshare, .setgroups, .uid_map, .gid_map, .open_oldroot,
         .open_overlay (argv.getD 1 ""), .chdir_fd, .mount_tmp, .mkdir_newroot,
         .mkdir_oldroot, .pivot_tmp, .merge, .pivot_newroot, .umount, .chdir_cwd,
         .execvp (argv.getD e "") (argv.drop e)]) := by
  constructor
  · intro h
    have hall : ∀ a ∈ argv.drop 2, hasEq a = true := by
      intro a ha
      obtain ⟨i, h1, h2, rfl⟩ := getD_of_mem_drop argv a 2 ha
      exact h i h1 h2
    have hm : main argv = (argv.drop 2).map Step.putenv ++ [.usage 1] := by
      unfold main
      simp only [envLoop_eq, takeWhile_all _ hall, List.nil_append]
      rw [if_pos]
      simp; omega
    refine ⟨hm, ?_⟩
    rw [hm]
    intro s hs
    rcases List.mem_append.mp hs with h1 | h1
    · obtain ⟨a, _, rfl⟩ := List.mem_map.mp h1
      rfl
    · rw [List.mem_singleton.mp h1]; rfl
  · intro e h2 hlt hno hpre
    have hsplit : argv.drop 2 = (argv.take e).drop 2 ++ argv.getD e "" :: argv.drop (e + 1) := by
      have h1 : argv = argv.take e ++ argv.drop e := (List.take_append_drop e argv).symm
      have h3 : argv.drop e = argv.getD e "" :: argv.drop (e + 1) := by
        rw [List.drop_eq_getElem_cons hlt]
        simp [List.getD, List.getElem?_eq_getElem hlt]
      conv_lhs => rw [h1, h3]
      rw [List.drop_append_eq_append_drop]
      have : 2 - (argv.take e).length = 0 := by simp; omega
      rw [this]; rfl
    have hall : ∀ b ∈ (argv.take e).drop 2, hasEq b = true := by
      intro b hb
      obtain ⟨i, h1, h2', hi⟩ := getD_of_mem_drop (argv.take e) b 2 hb
      have hie : i < e := by simp at h2'; omega
      have := hpre i h1 hie
      have hg : (argv.take e).getD i "" = argv.getD i "" := by
        simp [List.getD, List.getElem?_take, hie]
      rw [← hi, hg]; exact this
    have hlen : ((argv.take e).drop 2).length = e - 2 := by simp; omega
    unfold main
    simp only [envLoop_eq, hsplit, takeWhile_split _ _ _ hall hno, List.nil_append, hlen]
    have he : 2 + (e - 2) = e := by omega
    rw [he, if_neg (by omega)]

theorem main_invocation_witness :
    ((∀ i, 2 ≤ i → i < ["overlay", "tree", "FOO=1"].length →
        hasEq (["overlay", "tree", "FOO=1"].getD i "") = true) ∧
      main ["overlay", "tree", "FOO=1"] = [.putenv "FOO=1", .usage 1]) ∧
    ((2 ≤ 4 ∧ 4 < ["overlay", "tree", "FOO=1", "BAR=2", "printenv", "FOO=3"].length ∧
      hasEq (["overlay", "tree", "FOO=1", "BAR=2", "printenv", "FOO=3"].getD 4 "") = false ∧
      (∀ i, 2 ≤ i → i < 4 →
        hasEq (["overlay", "tree", "FOO=1", "BAR=2", "printenv", "FOO=3"].getD i "") = true)) ∧
      main ["overlay", "tree", "FOO=1", "BAR=2", "printenv", "FOO=3"] =
        [.putenv "FOO=1", .putenv "BAR=2", .getcwd, .unshare, .setgroups, .uid_map, .gid_map,
         .open_oldroot, .open_overlay "tree", .chdir_fd, .mount_tmp, .mkdir_newroot,
         .mkdir_oldroot, .pivot_tmp, .merge, .pivot_newroot, .umount, .chdir_cwd,
         .execvp "printenv" ["printenv", "FOO=3"]]) := by
  have h1 : ∀ i, 2 ≤ i → i < ["overlay", "tree", "FOO=1"].length →
      hasEq (["overlay", "tree", "FOO=1"].getD i "") = true := by
    intro i h2 h3
    have : i = 2 := by simp at h3; omega
    subst this
    decide!
  have h2 : ∀ i, 2 ≤ i → i < 4 →
      hasEq (["overlay", "tree", "FOO=1", "BAR=2", "printenv", "FOO=3"].getD i "") = true := by
    intro i h2 h3
    have : i = 2 ∨ i = 3 := by omega
    rcases this with rfl | rfl <;> decide!
  exact ⟨⟨h1, ((main_invocation ["overlay", "tree", "FOO=1"]).1 h1).1⟩,
    ⟨⟨by decide, by decide, by decide!, h2⟩,
      (main_invocation ["overlay", "tree", "FOO=1", "BAR=2", "printenv", "FOO=3"]).2 4
        (by decide) (by decide) (by decide!) h2⟩⟩

/-! ## The trace under faults -/

theorem syscall_cases {α : Type} (c : Call) (arg : Name) (nat : Except Nat α) (w : World) :
    ∃ r, (r = nat ∨ ∃ e, r = .error e) ∧
      syscall c arg nat w =
        (.done r, ⟨w.faults.tail, w.trace ++ [Event.mk c arg (errnoOf r)], w.binds⟩) := by
  obtain ⟨fs, tr, bs⟩ := w
  cases fs with
  | nil => exact ⟨nat, Or.inl rfl, rfl⟩
  | cons f rest =>
    cases f with
    | none => exact ⟨nat, Or.inl rfl, rfl⟩
    | some e => exact ⟨.error e, Or.inr ⟨e, rfl⟩, rfl⟩

theorem nobad_nil : ∀ e ∈ ([] : List Event), e.bad = false := by
  intro e he
  cases he

theorem handles_pure {α : Type} {P : α → Prop} {a : α} (h : P a) : Handles (Pure.pure a) P := by
  intro w
  refine ⟨[], by simp [pure_run], ?_⟩
  rw [pure_run]
  exact ⟨nobad_nil, h⟩

theorem handles_bind {α β : Type} {m : Sys α} {f : α → Sys β} {P : α → Prop} {Q : β → Prop}
    (hm : Handles m P) (hf : ∀ a, P a → Handles (f a) Q) : Handles (m >>= f) Q := by
  intro w
  obtain ⟨new1, ht1, h1⟩ := hm w
  rw [bind_run]
  rcases hmw : m w with ⟨o1, w1⟩
  rw [hmw] at ht1 h1
  simp only at ht1 h1
  cases o1 with
  | done a =>
    obtain ⟨hnb, hp⟩ := h1
    obtain ⟨new2, ht2, h2⟩ := hf a hp w1
    refine ⟨new1 ++ new2, by simp only; rw [ht2, ht1, List.append_assoc], ?_⟩
    simp only
    rcases hfw : f a w1 with ⟨o2, w2⟩
    rw [hfw] at h2
    simp only at h2 ⊢
    cases o2 with
    | done b =>
      refine ⟨?_, h2.2⟩
      intro e he
      rcases List.mem_append.mp he with h | h
      · exact hnb e h
      · exact h2.1 e h
    | abort c =>
      obtain ⟨pre, ev, hnew, hpre, hev⟩ := h2
      refine ⟨new1 ++ pre, ev, by rw [hnew, List.append_assoc], ?_, hev⟩
      intro e he
      rcases List.mem_append.mp he with h | h
      · exact hnb e h
      · exact hpre e h
    | overrun =>
      intro e he
      rcases List.mem_append.mp he with h | h
      · exact hnb e h
      · exact h2 e h
    | starved => exact h2
  | abort c => exact ⟨new1, ht1, h1⟩
  | overrun => exact ⟨new1, ht1, h1⟩
  | starved => exact h1.elim

theorem handles_mono {α : Type} {m : Sys α} {P Q : α → Prop}
    (hm : Handles m P) (h : ∀ a, P a → Q a) : Handles m Q := by
  intro w
  obtain ⟨new, ht, h1⟩ := hm w
  refine ⟨new, ht, ?_⟩
  rcases hmw : m w with ⟨o1, w1⟩
  rw [hmw] at h1
  simp only at h1 ⊢
  cases o1 with
  | done a => exact ⟨h1.1, h a h1.2⟩
  | abort c => exact h1
  | overrun => exact h1
  | starved => exact h1

theorem handles_map {α β : Type} {m : Sys α} {g : α → β} {P : α → Prop}
    (hm : Handles m P) : Handles (g <$> m) (fun _ => True) := by
  show Handles (m >>= fun x => Pure.pure (g x)) _
  exact handles_bind hm (fun a _ => handles_pure trivial)

/-- A call followed by its handler: the handler leaves the process right away on
a failure that is not goesOn, and observes the discipline otherwise. -/
theorem handles_syscall_bind {α β : Type} (c : Call) (arg : Name) (nat : Except Nat α)
    (f : Except Nat α → Sys β) (Q : β → Prop)
    (hok : ∀ r, (r = nat ∨ ∃ e, r = .error e) →
      Event.bad (Event.mk c arg (errnoOf r)) = false → Handles (f r) Q)
    (hbad : ∀ e, Event.bad (Event.mk c arg (some e)) = true →
      ∃ s, ∀ w, f (.error e) w = (.abort s, w)) :
    Handles (syscall c arg nat >>= f) Q := by
  intro w
  obtain ⟨r, hr, hs⟩ := syscall_cases c arg nat w
  rw [bind_run, hs]
  simp only
  cases hb : Event.bad (Event.mk c arg (errnoOf r)) with
  | false =>
    obtain ⟨new2, ht2, h2⟩ := hok r hr hb ⟨w.faults.tail, w.trace ++ [Event.mk c arg (errnoOf r)],
      w.binds⟩
    refine ⟨Event.mk c arg (errnoOf r) :: new2, by rw [ht2]; simp, ?_⟩
    rcases hfw : f r ⟨w.faults.tail, w.trace ++ [Event.mk c arg (errnoOf r)], w.binds⟩
      with ⟨o2, w2⟩
    rw [hfw] at h2
    simp only at h2 ⊢
    cases o2 with
    | done b =>
      refine ⟨?_, h2.2⟩
      intro e he
      rcases List.mem_cons.mp he with h | h
      · rw [h]; exact hb
      · exact h2.1 e h
    | abort s =>
      obtain ⟨pre, ev, hnew, hpre, hev⟩ := h2
      refine ⟨Event.mk c arg (errnoOf r) :: pre, ev, by rw [hnew]; rfl, ?_, hev⟩
      intro e he
      rcases List.mem_cons.mp he with h | h
      · rw [h]; exact hb
      · exact hpre e h
    | overrun =>
      intro e he
      rcases List.mem_cons.mp he with h | h
      · rw [h]; exact hb
      · exact h2 e h
    | starved => exact h2
  | true =>
    have hfail : ∃ e, r = .error e := by
      cases r with
      | error e => exact ⟨e, rfl⟩
      | ok a => simp [Event.bad, Event.failed, errnoOf] at hb
    obtain ⟨e, rfl⟩ := hfail
    obtain ⟨s, hab⟩ := hbad e hb
    rw [hab]
    refine ⟨[Event.mk c arg (some e)], rfl, [], Event.mk c arg (some e), rfl,
      nobad_nil, ?_⟩
    simp only [Event.bad, errnoOf, Bool.and_eq_true, Bool.not_eq_true'] at hb
    simp [hb.1, hb.2]

theorem CHKSYS_handles {α : Type} (c : Call) (arg : Name) (nat : Except Nat α)
    (hc : ∀ a e, goesOn (Event.mk c a (some e)) = false) :
    Handles (CHKSYS c arg nat) (fun a => nat = .ok a) := by
  unfold CHKSYS
  apply handles_syscall_bind
  · intro r hr hb
    cases r with
    | ok a =>
      rcases hr with h | ⟨e, h⟩
      · exact handles_pure h.symm
      · cases h
    | error e =>
      simp [Event.bad, Event.failed, errnoOf, hc arg e] at hb
  · intro e _
    exact ⟨255, fun w => rfl⟩

theorem logBind_handles (r : BindRec) : Handles (logBind r) (fun _ => True) := by
  intro w
  exact ⟨[], by simp [logBind], nobad_nil, trivial⟩

theorem bindmntat_handles (sn dn : Name) (src dst : Option Node) :
    Handles (bindmntat sn dn src dst) (fun _ => True) := by
  unfold bindmntat
  refine handles_bind (logBind_handles _) (fun _ _ => ?_)
  refine handles_bind (CHKSYS_handles _ _ _ (fun _ _ => rfl)) (fun _ _ => ?_)
  refine handles_bind (CHKSYS_handles _ _ _ (fun _ _ => rfl)) (fun _ _ => ?_)
  refine handles_bind (CHKSYS_handles _ _ _ (fun _ _ => rfl)) (fun _ _ => ?_)
  refine handles_bind (CHKSYS_handles _ _ _ (fun _ _ => rfl)) (fun _ _ => ?_)
  refine handles_bind (CHKSYS_handles _ _ _ (fun _ _ => rfl)) (fun _ _ => ?_)
  exact handles_pure trivial

theorem do_readlinkat_handles (dir : Node) (name : Name) :
    Handles (do_readlinkat dir name) (fun _ => True) := by
  intro w
  unfold do_readlinkat CHKSYS
  obtain ⟨r, -, hs⟩ := syscall_cases Call.readlinkat name (readlinkat dir name (PATH_MAX + 1)) w
  rw [bind_run, bind_run, hs]
  simp only
  cases r with
  | error e =>
    refine ⟨[Event.mk .readlinkat name (some e)], rfl, [], _, rfl, nobad_nil, rfl⟩
  | ok buf =>
    by_cases hlen : buf.length > PATH_MAX
    · refine ⟨[Event.mk .readlinkat name none], ?_, ?_⟩
      · simp only [pure_run, if_pos hlen]; rfl
      · simp only [pure_run, if_pos hlen]
        exact ⟨[], _, rfl, nobad_nil, rfl⟩
    · refine ⟨[Event.mk .readlinkat name none], ?_, ?_⟩
      · simp only [pure_run, if_neg hlen]; rfl
      · simp only [pure_run, if_neg hlen]
        refine ⟨?_, trivial⟩
        intro e he
        rw [List.mem_singleton.mp he]; rfl

theorem readdir_handles {β : Type} (arg : Name) (k : Sys β) (Q : β → Prop) (hk : Handles k Q) :
    Handles (syscall Call.readdir arg (Except.ok ()) >>= fun r =>
      match r with
      | .error _ => die 1
      | .ok _ => k) Q := by
  apply handles_syscall_bind
  · intro r _ hb
    cases r with
    | ok a => exact hk
    | error e => simp [Event.bad, Event.failed, errnoOf, goesOn, Call.tested, swallowed] at hb
  · intro e _
    exact ⟨1, fun w => rfl⟩

theorem forEnt_handles {σ : Type} (body : Dirent → σ → Sys σ)
    (hbody : ∀ d s, Handles (body d s) (fun _ => True)) :
    ∀ (ds : List Dirent) (s : σ), Handles (forEnt body ds s) (fun _ => True) := by
  intro ds
  induction ds with
  | nil =>
    intro s
    unfold forEnt
    exact readdir_handles _ _ _ (handles_pure trivial)
  | cons d rest ih =>
    intro s
    unfold forEnt
    apply readdir_handles
    by_cases hdot : isDot d.d_name = true
    · rw [if_pos hdot]; exact ih s
    · rw [if_neg hdot]
      exact handles_bind (hbody d s) (fun s1 _ => ih s1)

theorem scanTop_handles (base : Node) : ∀ ds : List Dirent,
    Handles (scanTop base ds) (fun _ => True) := by
  intro ds
  induction ds with
  | nil =>
    unfold scanTop
    exact readdir_handles _ _ _ (handles_pure trivial)
  | cons d rest ih =>
    unfold scanTop
    apply readdir_handles
    by_cases hdot : isDot d.d_name = true
    · rw [if_pos hdot]; exact ih
    · rw [if_neg hdot]
      apply handles_syscall_bind
      · intro r _ _
        cases r with
        | error e => exact handles_pure trivial
        | ok stt =>
          simp only
          split
          · exact handles_pure trivial
          · exact ih
      · intro e hb
        simp [Event.bad, goesOn, Call.tested] at hb

theorem sprintfOutpath_handles (tail : Nat) (name : Name) :
    Handles (sprintfOutpath tail name) (fun _ => True) := by
  intro w
  unfold sprintfOutpath
  by_cases h : tail + strlen name + 2 ≤ PATH_MAX
  · rw [if_pos h]
    exact ⟨[], by simp, nobad_nil, trivial⟩
  · rw [if_neg h]
    exact ⟨[], by simp, nobad_nil⟩

theorem openDir_depth (top : Node) (name : Name) (t : Node) (h : openDir top name = .ok t) :
    t.depth < top.depth := by
  cases top with
  | dir m w es =>
    simp only [openDir, Node.ents] at h
    cases hf : find name es with
    | none => rw [hf] at h; cases h
    | some c =>
      rw [hf] at h
      cases c with
      | dir m2 w2 es2 =>
        simp only at h
        split at h
        · simp only [Except.ok.injEq] at h
          subst h
          exact depth_child m w es name _ hf
        · cases h
      | lnk _ => cases h
      | oth _ => cases h
  | lnk _ => simp [openDir, Node.ents, find] at h
  | oth _ => simp [openDir, Node.ents, find] at h

theorem pass1Body_handles (fuel : Nat)
    (recur : Node → Node → Option Node → Name → State → Nat → Sys Node)
    (hrec : RecHandles fuel recur) (base top : Node) (tail : Nat) (hd : top.depth < fuel + 1)
    (d : Dirent) (out : Ents) :
    Handles (pass1Body recur base top tail d out) (fun _ => True) := by
  unfold pass1Body
  cases d.d_type with
  | DT_DIR =>
    simp only
    refine handles_bind (CHKSYS_handles _ _ _ (fun _ _ => rfl)) (fun out1 _ => ?_)
    apply handles_syscall_bind
    · intro r _ _
      cases r with
      | error e =>
        exact handles_bind (bindmntat_handles _ _ _ _) (fun _ _ => handles_pure trivial)
      | ok b =>
        simp only
        refine handles_bind (CHKSYS_handles _ _ _ (fun _ _ => rfl)) (fun t ht => ?_)
        have := openDir_depth top d.d_name t ht
        refine handles_bind (sprintfOutpath_handles _ _) (fun tail1 _ => ?_)
        exact handles_bind (hrec b t _ _ _ _ (by omega)) (fun _ _ => handles_pure trivial)
    · intro e hb
      simp [Event.bad, goesOn, Call.tested] at hb
  | DT_LNK =>
    simp only
    refine handles_bind (do_readlinkat_handles _ _) (fun buf _ => ?_)
    exact handles_mono (CHKSYS_handles _ _ _ (fun _ _ => rfl)) (fun _ _ => trivial)
  | DT_OTHER =>
    simp only
    refine handles_bind (CHKSYS_handles _ _ _ (fun _ _ => rfl)) (fun out1 _ => ?_)
    exact handles_bind (bindmntat_handles _ _ _ _) (fun _ _ => handles_pure trivial)

theorem create_handles (c : Call) (arg : Name) (nat : Except Nat Ents)
    (hc : c = .mkdirat_base ∨ c = .symlinkat_base ∨ c = .mknodat_base)
    (out : Ents) (k : Ents → Sys Ents) (hk : ∀ o, Handles (k o) (fun _ => True)) :
    Handles (syscall c arg nat >>= fun r =>
      match r with
      | .error e => if e = EEXIST then Pure.pure out else die 1
      | .ok out1 => k out1) (fun _ => True) := by
  apply handles_syscall_bind
  · intro r _ hb
    cases r with
    | ok o => exact hk o
    | error e =>
      simp only
      by_cases he : e = EEXIST
      · rw [if_pos he]; exact handles_pure trivial
      · exfalso
        rcases hc with h | h | h <;> subst h <;>
          simp [Event.bad, Event.failed, errnoOf, goesOn, Call.tested, swallowed, he] at hb
  · intro e hb
    refine ⟨1, fun w => ?_⟩
    have he : e ≠ EEXIST := by
      intro h
      subst h
      rcases hc with h | h | h <;> subst h <;>
        simp [Event.bad, Event.failed, goesOn, Call.tested, swallowed] at hb
    simp only [if_neg he]
    rfl

theorem pass2Body_handles (base : Node) (d : Dirent) (out : Ents) :
    Handles (pass2Body base d out) (fun _ => True) := by
  unfold pass2Body
  cases d.d_type with
  | DT_DIR =>
    simp only
    apply create_handles _ _ _ (Or.inl rfl)
    intro o
    exact handles_bind (bindmntat_handles _ _ _ _) (fun _ _ => handles_pure trivial)
  | DT_LNK =>
    simp only
    refine handles_bind (do_readlinkat_handles _ _) (fun buf _ => ?_)
    apply create_handles _ _ _ (Or.inr (Or.inl rfl))
    intro o
    exact handles_pure trivial
  | DT_OTHER =>
    simp only
    apply create_handles _ _ _ (Or.inr (Or.inr rfl))
    intro o
    exact handles_bind (bindmntat_handles _ _ _ _) (fun _ _ => handles_pure trivial)

theorem stackBody_handles (fuel : Nat)
    (recur : Node → Node → Option Node → Name → State → Nat → Sys Node)
    (hrec : RecHandles fuel recur) (base top : Node) (tail : Nat) (hd : top.depth < fuel + 1)
    (d : Dirent) (out : Ents) :
    Handles (stackBody recur base top tail d out) (fun _ => True) := by
  unfold stackBody
  cases d.d_type with
  | DT_DIR =>
    simp only
    refine handles_bind (CHKSYS_handles _ _ _ (fun _ _ => rfl)) (fun b _ => ?_)
    refine handles_bind (CHKSYS_handles _ _ _ (fun _ _ => rfl)) (fun t ht => ?_)
    have := openDir_depth top d.d_name t ht
    refine handles_bind (sprintfOutpath_handles _ _) (fun tail1 _ => ?_)
    exact handles_bind (hrec b t _ _ _ _ (by omega)) (fun _ _ => handles_pure trivial)
  | DT_LNK =>
    simp only
    exact handles_bind (bindmntat_handles _ _ _ _) (fun _ _ => handles_pure trivial)
  | DT_OTHER =>
    simp only
    exact handles_bind (bindmntat_handles _ _ _ _) (fun _ _ => handles_pure trivial)

theorem explodeFrame_handles (fuel : Nat)
    (recur : Node → Node → Option Node → Name → State → Nat → Sys Node)
    (hrec : RecHandles fuel recur) (base top : Node) (hd : top.depth < fuel + 1)
    (slot : Option Node) (outname : Name) (st : State) (tail : Nat) :
    Handles (explodeFrame recur base top slot outname st tail) (fun _ => True) := by
  unfold explodeFrame
  refine handles_bind (P := fun _ => True) ?_ (fun slot1 _ => ?_)
  · split
    · exact handles_mono (CHKSYS_handles _ _ _ (fun _ _ => rfl)) (fun _ _ => trivial)
    · exact handles_pure trivial
  · refine handles_bind (CHKSYS_handles _ _ _ (fun _ _ => rfl)) (fun o _ => ?_)
    refine handles_bind (forEnt_handles _ (pass1Body_handles fuel recur hrec base top tail hd) _ _)
      (fun es1 _ => ?_)
    refine handles_bind (forEnt_handles _ (pass2Body_handles base) _ _) (fun es2 _ => ?_)
    apply handles_syscall_bind
    · intro r _ _
      refine handles_bind (CHKSYS_handles _ _ _ (fun _ _ => rfl)) (fun _ _ => ?_)
      refine handles_bind (CHKSYS_handles _ _ _ (fun _ _ => rfl)) (fun _ _ => ?_)
      exact handles_pure trivial
    · intro e hb
      simp [Event.bad, goesOn, Call.tested] at hb

theorem stackFrame_handles (fuel : Nat)
    (recur : Node → Node → Option Node → Name → State → Nat → Sys Node)
    (hrec : RecHandles fuel recur) (base top : Node) (hd : top.depth < fuel + 1)
    (slot : Option Node) (outname : Name) (st : State) (tail : Nat) :
    Handles (stackFrame recur base top slot outname st tail) (fun _ => True) := by
  unfold stackFrame
  refine handles_bind (P := fun _ => True) ?_ (fun slot1 _ => ?_)
  · split
    · exact handles_map (bindmntat_handles _ _ _ _)
    · exact handles_pure trivial
  · refine handles_bind (CHKSYS_handles _ _ _ (fun _ _ => rfl)) (fun o _ => ?_)
    refine handles_bind (forEnt_handles _ (stackBody_handles fuel recur hrec base top tail hd) _ _)
      (fun es _ => ?_)
    refine handles_bind (CHKSYS_handles _ _ _ (fun _ _ => rfl)) (fun _ _ => ?_)
    exact handles_pure trivial

/-- Under any faults `merge` observes the discipline of the trace and does not run
out of fuel above the depth of top. -/
theorem merge_handles : ∀ fuel, RecHandles fuel (merge fuel) := by
  intro fuel
  induction fuel with
  | zero =>
    intro b t slot name st tail hd
    omega
  | succ fuel ih =>
    intro b t slot name st tail hd
    unfold merge
    refine handles_bind (scanTop_handles b _) (fun ex _ => ?_)
    refine handles_bind (P := fun _ => True) ?_ (fun v _ => ?_)
    · split
      · exact explodeFrame_handles fuel _ ih b t hd slot name st tail
      · exact stackFrame_handles fuel _ ih b t hd slot name st tail
    · refine handles_bind (CHKSYS_handles _ _ _ (fun _ _ => rfl)) (fun _ _ => ?_)
      refine handles_bind (CHKSYS_handles _ _ _ (fun _ _ => rfl)) (fun _ _ => ?_)
      exact handles_pure trivial

theorem plain_pure {α : Type} (a : α) : Plain (Pure.pure a : Sys α) := by
  intro w
  exact ⟨[], by simp [pure_run], fun e he => by cases he⟩

theorem plain_die {α : Type} (s : Nat) : Plain (die s : Sys α) := by
  intro w
  exact ⟨[], (List.append_nil _).symm, fun e he => by cases he⟩

theorem plain_bind {α β : Type} {m : Sys α} {f : α → Sys β}
    (hm : Plain m) (hf : ∀ a, Plain (f a)) : Plain (m >>= f) := by
  intro w
  obtain ⟨new1, ht1, h1⟩ := hm w
  rw [bind_run]
  rcases hmw : m w with ⟨o1, w1⟩
  rw [hmw] at ht1
  simp only at ht1
  cases o1 with
  | done a =>
    obtain ⟨new2, ht2, h2⟩ := hf a w1
    refine ⟨new1 ++ new2, by simp only; rw [ht2, ht1, List.append_assoc], ?_⟩
    intro e he
    rcases List.mem_append.mp he with h | h
    · exact h1 e h
    · exact h2 e h
  | abort c => exact ⟨new1, ht1, h1⟩
  | overrun => exact ⟨new1, ht1, h1⟩
  | starved => exact ⟨new1, ht1, h1⟩

theorem plain_syscall {α : Type} (c : Call) (arg : Name) (nat : Except Nat α)
    (hc : ∀ a x, swallowed (Event.mk c a x) = false) : Plain (syscall c arg nat) := by
  intro w
  obtain ⟨r, -, hs⟩ := syscall_cases c arg nat w
  rw [hs]
  refine ⟨[Event.mk c arg (errnoOf r)], rfl, ?_⟩
  intro e he
  rw [List.mem_singleton.mp he]
  exact hc _ _

theorem plain_CHKSYS {α : Type} (c : Call) (arg : Name) (nat : Except Nat α)
    (hc : ∀ a x, swallowed (Event.mk c a x) = false) : Plain (CHKSYS c arg nat) := by
  unfold CHKSYS
  refine plain_bind (plain_syscall c arg nat hc) ?_
  intro r
  cases r with
  | ok a => exact plain_pure a
  | error e => exact plain_die 255

theorem bindmntat_plain (sn dn : Name) (src dst : Option Node) :
    Plain (bindmntat sn dn src dst) := by
  unfold bindmntat
  refine plain_bind ?_ (fun _ => ?_)
  · intro w
    exact ⟨[], by simp [logBind], fun e he => by cases he⟩
  refine plain_bind (plain_CHKSYS _ _ _ (fun _ _ => rfl)) (fun _ => ?_)
  refine plain_bind (plain_CHKSYS _ _ _ (fun _ _ => rfl)) (fun _ => ?_)
  refine plain_bind (plain_CHKSYS _ _ _ (fun _ _ => rfl)) (fun _ => ?_)
  refine plain_bind (plain_CHKSYS _ _ _ (fun _ _ => rfl)) (fun _ => ?_)
  refine plain_bind (plain_CHKSYS _ _ _ (fun _ _ => rfl)) (fun _ => ?_)
  exact plain_pure _

/-- A pass-2 creation call with its handler: a swallowed `EEXIST` is logged only
when the handler returns `out` with the bind log as it was. -/
theorem create_skip (c : Call) (arg : Name) (nat : Except Nat Ents) (out : Ents)
    (k : Ents → Sys Ents) (hk : ∀ o, Plain (k o)) (w : World) :
    ∃ new, ((syscall c arg nat >>= fun r =>
        match r with
        | .error e => if e = EEXIST then Pure.pure out else die 1
        | .ok out1 => k out1) w).2.trace = w.trace ++ new ∧
      ((∃ ev ∈ new, swallowed ev = true) →
        ((syscall c arg nat >>= fun r =>
          match r with
          | .error e => if e = EEXIST then Pure.pure out else die 1
          | .ok out1 => k out1) w).1 = .done out ∧
        ((syscall c arg nat >>= fun r =>
          match r with
          | .error e => if e = EEXIST then Pure.pure out else die 1
          | .ok out1 => k out1) w).2.binds = w.binds) := by
  obtain ⟨r, -, hs⟩ := syscall_cases c arg nat w
  rw [bind_run, hs]
  simp only
  cases r with
  | error e =>
    by_cases he : e = EEXIST
    · simp only [if_pos he, pure_run]
      exact ⟨[Event.mk c arg (errnoOf (Except.error e : Except Nat Ents))], rfl,
        fun _ => ⟨trivial, trivial⟩⟩
    · simp only [if_neg he, die]
      refine ⟨[Event.mk c arg (errnoOf (Except.error e : Except Nat Ents))], rfl, ?_⟩
      rintro ⟨ev, hev, hsw⟩
      rw [List.mem_singleton.mp hev] at hsw
      simp [swallowed, errnoOf, he] at hsw
  | ok o =>
    obtain ⟨new2, ht2, h2⟩ := hk o ⟨w.faults.tail,
      w.trace ++ [Event.mk c arg (errnoOf (Except.ok o : Except Nat Ents))], w.binds⟩
    refine ⟨Event.mk c arg none :: new2, by rw [ht2]; simp [errnoOf], ?_⟩
    rintro ⟨ev, hev, hsw⟩
    rcases List.mem_cons.mp hev with h | h
    · rw [h] at hsw
      simp [swallowed] at hsw
    · rw [h2 ev h] at hsw
      cases hsw

theorem do_readlinkat_plain (dir : Node) (name : Name) (w : World) :
    ∃ new, (do_readlinkat dir name w).2.trace = w.trace ++ new ∧
      (∀ e ∈ new, swallowed e = false) ∧ (do_readlinkat dir name w).2.binds = w.binds := by
  unfold do_readlinkat CHKSYS
  obtain ⟨r, -, hs⟩ := syscall_cases Call.readlinkat name (readlinkat dir name (PATH_MAX + 1)) w
  rw [bind_run, bind_run, hs]
  simp only
  have hev : ∀ e ∈ [Event.mk Call.readlinkat name (errnoOf r)], swallowed e = false := by
    intro e he
    rw [List.mem_singleton.mp he]; rfl
  cases r with
  | error e => exact ⟨_, rfl, hev, rfl⟩
  | ok buf =>
    by_cases hlen : buf.length > PATH_MAX
    · simp only [pure_run, if_pos hlen]
      exact ⟨_, rfl, hev, rfl⟩
    · simp only [pure_run, if_neg hlen]
      exact ⟨_, rfl, hev, trivial⟩

theorem pass2Body_skip (base : Node) (d : Dirent) (out : Ents) (w : World) :
    ∃ new, (pass2Body base d out w).2.trace = w.trace ++ new ∧
      ((∃ ev ∈ new, swallowed ev = true) →
        (pass2Body base d out w).1 = .done out ∧ (pass2Body base d out w).2.binds = w.binds) := by
  unfold pass2Body
  cases d.d_type with
  | DT_DIR =>
    simp only
    exact create_skip _ _ _ out _
      (fun o => plain_bind (bindmntat_plain _ _ _ _) (fun v => plain_pure _)) w
  | DT_OTHER =>
    simp only
    exact create_skip _ _ _ out _
      (fun o => plain_bind (bindmntat_plain _ _ _ _) (fun v => plain_pure _)) w
  | DT_LNK =>
    simp only
    obtain ⟨new1, ht1, hp1, hb1⟩ := do_readlinkat_plain base d.d_name w
    rw [bind_run]
    rcases hrl : do_readlinkat base d.d_name w with ⟨o1, w1⟩
    rw [hrl] at ht1 hb1
    simp only at ht1 hb1
    cases o1 with
    | done buf =>
      simp only
      obtain ⟨new2, ht2, h2⟩ := create_skip Call.symlinkat_base d.d_name
        (createAt out d.d_name (Node.lnk buf)) out (fun o => Pure.pure o)
        (fun o => plain_pure o) w1
      refine ⟨new1 ++ new2, by rw [ht2, ht1, List.append_assoc], ?_⟩
      rintro ⟨ev, hev, hsw⟩
      rcases List.mem_append.mp hev with h | h
      · rw [hp1 ev h] at hsw; cases hsw
      · obtain ⟨h3, h4⟩ := h2 ⟨ev, h, hsw⟩
        exact ⟨h3, by rw [h4, hb1]⟩
    | abort c =>
      refine ⟨new1, ht1, ?_⟩
      rintro ⟨ev, hev, hsw⟩
      rw [hp1 ev hev] at hsw; cases hsw
    | overrun =>
      refine ⟨new1, ht1, ?_⟩
      rintro ⟨ev, hev, hsw⟩
      rw [hp1 ev hev] at hsw; cases hsw
    | starved =>
      refine ⟨new1, ht1, ?_⟩
      rintro ⟨ev, hev, hsw⟩
      rw [hp1 ev hev] at hsw; cases hsw

theorem append_cons_eq_snoc {α : Type} (pre post pre0 : List α) (ev ev0 : α)
    (h : pre ++ ev :: post = pre0 ++ [ev0]) :
    (post = [] ∧ ev = ev0) ∨ (post ≠ [] ∧ ev ∈ pre0) := by
  rcases List.eq_nil_or_concat post with hp | ⟨L, b, hp⟩
  · subst hp
    have := List.append_inj' h rfl
    exact Or.inl ⟨rfl, by simpa using this.2⟩
  · subst hp
    have h2 : (pre ++ ev :: L) ++ [b] = pre0 ++ [ev0] := by simpa using h
    have := List.append_inj' h2 rfl
    refine Or.inr ⟨by simp, ?_⟩
    rw [← this.1]
    simp

theorem tolerated_goesOn (ev : Event) (h : tolerated ev = true) :
    (ev.failed && goesOn ev) = true := by
  obtain ⟨c, a, e⟩ := ev
  simp only [tolerated, swallowed, Bool.or_eq_true, Bool.and_eq_true, beq_iff_eq] at h
  rcases h with ((h | h) | h) | h
  · obtain ⟨h1, h2⟩ := h
    subst h2
    rcases h1 with (h1 | h1) | h1 <;> subst h1 <;> rfl
  · obtain ⟨h1, h2⟩ := h
    subst h1; subst h2; rfl
  · obtain ⟨h1, h2⟩ := h
    subst h1
    rcases h2 with h2 | h2 <;> subst h2 <;> rfl
  · obtain ⟨h1, h2⟩ := h
    subst h1; subst h2; rfl

theorem fatal_bad (ev : Event) (h : fatal ev = true) : ev.bad = true := by
  simp only [fatal, Bool.and_eq_true, Bool.not_eq_true'] at h
  simp [Event.bad, goesOn, h.1.1, h.1.2, h.2]

theorem lacks_false (ev : Event) (h : ev.lacks = false) :
    (ev.call = .openat_base_stack → ev.errno ≠ some ENOENT ∧ ev.errno ≠ some ENOTDIR) ∧
    ((ev.call = .bind_open_src ∨ ev.call = .bind_open_dst ∨ ev.call = .bind_mount) →
      ev.errno = none) := by
  obtain ⟨c, a, e⟩ := ev
  constructor
  · intro hc
    simp only at hc
    subst hc
    simp only [Event.lacks, Bool.or_eq_false_iff, beq_eq_false_iff_ne, ne_eq] at h
    exact h
  · intro hc
    simp only at hc
    rcases hc with hc | hc | hc <;> subst hc <;>
      simpa [Event.lacks] using h

/-- C7 as amended, error handling in the weave. Under any faults, with `new` the
calls a run of `merge` issues, the run does not run out of fuel, and of a call
of `new`: when it fails with the `EEXIST` of `mkdirat`, `symlinkat` or `mknodat`
in pass 2, with `ENOENT` from the `fstatat` of the scan, with `ENOENT` or
`ENOTDIR` from the `openat` of the base entry in pass 1, or with `EACCES` from
`faccessat`, it is not the last call of a run that left the process; when it
fails otherwise and is not one of these three tested calls, it is the last call
and the process was left. Where the body of pass 2 logs such an `EEXIST`, it
returns the output directory as it was and issues no bind mount. -/
theorem error_handling (fuel : Nat) (base top : Node) (slot : Option Node)
    (outname : Name) (st : State) (tail : Nat) (w : World) (hfuel : top.depth < fuel) :
    (∃ new, (merge fuel base top slot outname st tail w).2.trace = w.trace ++ new ∧
      (merge fuel base top slot outname st tail w).1 ≠ .starved ∧
      ∀ pre ev post, new = pre ++ ev :: post →
        (tolerated ev = true →
          ¬ (post = [] ∧ (merge fuel base top slot outname st tail w).1.isAbort = true)) ∧
        (fatal ev = true →
          post = [] ∧ (merge fuel base top slot outname st tail w).1.isAbort = true)) ∧
    (∀ (d : Dirent) (out : Ents) (w1 : World),
      ∃ new, (pass2Body base d out w1).2.trace = w1.trace ++ new ∧
        ((∃ ev ∈ new, swallowed ev = true) →
          (pass2Body base d out w1).1 = .done out ∧
          (pass2Body base d out w1).2.binds = w1.binds)) := by
  refine ⟨?_, fun d out w1 => pass2Body_skip base d out w1⟩
  obtain ⟨new, ht, h⟩ := merge_handles fuel base top slot outname st tail hfuel w
  refine ⟨new, ht, ?_, ?_⟩
  · intro hs
    rw [hs] at h
    exact h
  · intro pre ev post hnew
    have hmem : ev ∈ new := by rw [hnew]; simp
    rcases hrun : (merge fuel base top slot outname st tail w).1 with a | c | _ | _
    · rw [hrun] at h
      simp only at h
      refine ⟨fun _ hc => ?_, fun hf => ?_⟩
      · simp [Outcome.isAbort] at hc
      · have := h.1 ev hmem
        rw [fatal_bad ev hf] at this
        cases this
    · rw [hrun] at h
      simp only at h
      obtain ⟨pre0, ev0, hnew0, hpre0, hev0⟩ := h
      rw [hnew0] at hnew
      rcases append_cons_eq_snoc pre post pre0 ev ev0 hnew.symm with ⟨hp, he⟩ | ⟨hp, he⟩
      · subst he
        refine ⟨fun htol _ => ?_, fun _ => ⟨hp, rfl⟩⟩
        rw [tolerated_goesOn ev htol] at hev0
        cases hev0
      · refine ⟨fun _ hc => hp hc.1, fun hf => ?_⟩
        have := hpre0 ev he
        rw [fatal_bad ev hf] at this
        cases this
    · rw [hrun] at h
      simp only at h
      refine ⟨fun _ hc => ?_, fun hf => ?_⟩
      · simp [Outcome.isAbort] at hc
      · have := h ev hmem
        rw [fatal_bad ev hf] at this
        cases this
    · rw [hrun] at h
      exact h.elim

theorem error_handling_witness :
    onlyTop.depth < 3 ∧
    ((∃ new, (merge 3 emptyRo onlyTop (some emptyDir) "/newroot" .kRoot 1 ⟨[], [], []⟩).2.trace =
        (World.mk [] [] []).trace ++ new ∧
      (merge 3 emptyRo onlyTop (some emptyDir) "/newroot" .kRoot 1 ⟨[], [], []⟩).1 ≠ .starved ∧
      ∀ pre ev post, new = pre ++ ev :: post →
        (tolerated ev = true →
          ¬ (post = [] ∧
            (merge 3 emptyRo onlyTop (some emptyDir) "/newroot" .kRoot 1
              ⟨[], [], []⟩).1.isAbort = true)) ∧
        (fatal ev = true →
          post = [] ∧
            (merge 3 emptyRo onlyTop (some emptyDir) "/newroot" .kRoot 1
              ⟨[], [], []⟩).1.isAbort = true)) ∧
    (∀ (d : Dirent) (out : Ents) (w1 : World),
      ∃ new, (pass2Body emptyRo d out w1).2.trace = w1.trace ++ new ∧
        ((∃ ev ∈ new, swallowed ev = true) →
          (pass2Body emptyRo d out w1).1 = .done out ∧
          (pass2Body emptyRo d out w1).2.binds = w1.binds))) :=
  ⟨by decide!, error_handling 3 emptyRo onlyTop (some emptyDir) "/newroot" .kRoot 1 ⟨[], [], []⟩
    (by decide!)⟩

/-- C7 as stated fails. With a directory `a` in top that base lacks, and a base
root that is not writable, the `fstatat` of the scan and the `openat` of the base
entry in pass 1 fail with `ENOENT` and `faccessat` fails with `EACCES`; with `a` a
file in base, the `openat` of the base entry in pass 1 fails with `ENOTDIR`. None
of them is an `EEXIST` of pass 2, and both runs finish without leaving the
process. -/
theorem error_handling_counterexample :
    finished (weave 3 emptyRo onlyTop) = true ∧
    Event.mk .fstatat_scan "a" (some ENOENT) ∈ (weave 3 emptyRo onlyTop).2.trace ∧
    Event.mk .openat_base_pass1 "a" (some ENOENT) ∈ (weave 3 emptyRo onlyTop).2.trace ∧
    Event.mk .faccessat "." (some EACCES) ∈ (weave 3 emptyRo onlyTop).2.trace ∧
    finished (weave 3 fileBase onlyTop) = true ∧
    Event.mk .openat_base_pass1 "a" (some ENOTDIR) ∈ (weave 3 fileBase onlyTop).2.trace ∧
    swallowed (Event.mk .fstatat_scan "a" (some ENOENT)) = false ∧
    swallowed (Event.mk .openat_base_pass1 "a" (some ENOENT)) = false ∧
    swallowed (Event.mk .openat_base_pass1 "a" (some ENOTDIR)) = false ∧
    swallowed (Event.mk .faccessat "." (some EACCES)) = false := by decide!

/-- C10, bind compatibility. For well-formed directory trees and enough fuel, in
a world without injected faults: the weave from the root finishes when every
directory of base and of top can be opened and the paths of the directories of
top fit in `outpath`; and in every run, finished or not, every bind mount
attempted through `bindmntat`, in whatever frame, had a source and a target that
existed when it was issued, of the same directory-ness; no `openat` of a base
entry on the stack path failed with `ENOENT` or `ENOTDIR`; and no `openat` of a
bind source or target and no bind `mount` failed. -/
theorem bind_compatibility (fuel : Nat) (base top : Node) (hbd : base.isDir = true)
    (htd : top.isDir = true) (hb : base.wf = true) (ht : top.wf = true)
    (hfuel : top.depth < fuel) :
    (base.readable = true → top.readable = true → top.fits 1 = true →
      finished (weave fuel base top) = true) ∧
    (∀ r ∈ (weave fuel base top).2.binds, ∃ k, r.src = some k ∧ r.dst = some k) ∧
    (∀ ev ∈ (weave fuel base top).2.trace,
      (ev.call = .openat_base_stack →
        ev.errno ≠ some ENOENT ∧ ev.errno ≠ some ENOTDIR) ∧
      ((ev.call = .bind_open_src ∨ ev.call = .bind_open_dst ∨ ev.call = .bind_mount) →
        ev.errno = none)) := by
  obtain ⟨⟨-, hbinds, htrace⟩, -, htotal⟩ := weave_quiet fuel base top hbd htd hb ht hfuel
  exact ⟨fun h1 h2 h3 => (finished_iff _).mpr (htotal ⟨h1, h2, h3⟩), hbinds,
    fun ev hev => lacks_false ev (htrace ev hev)⟩

theorem bind_compatibility_witness :
    (s2Base.isDir = true ∧ s2Top.isDir = true ∧ s2Base.wf = true ∧ s2Top.wf = true ∧
      s2Top.depth < 4 ∧ s2Base.readable = true ∧ s2Top.readable = true ∧
      s2Top.fits 1 = true) ∧
    finished (weave 4 s2Base s2Top) = true ∧
    (∀ r ∈ (weave 4 s2Base s2Top).2.binds, ∃ k, r.src = some k ∧ r.dst = some k) ∧
    (∀ ev ∈ (weave 4 s2Base s2Top).2.trace,
      (ev.call = .openat_base_stack →
        ev.errno ≠ some ENOENT ∧ ev.errno ≠ some ENOTDIR) ∧
      ((ev.call = .bind_open_src ∨ ev.call = .bind_open_dst ∨ ev.call = .bind_mount) →
        ev.errno = none)) :=
  ⟨by decide!,
    (bind_compatibility 4 s2Base s2Top (by decide!) (by decide!) (by decide!) (by decide!)
      (by decide!)).1 (by decide!) (by decide!) (by decide!),
    (bind_compatibility 4 s2Base s2Top (by decide!) (by decide!) (by decide!) (by decide!)
      (by decide!)).2⟩

end Overlay
